import Mathlib

/-!
Verification of the core of `rusty-automation-tool` (workflow automation
service in Rust) against its natural-language specification.

Shallow embedding notes:

* The JSON payload type (`serde_json::Value`) is opaque to all of the core
  logic (the engine and the queue only move values around and compare
  nothing inside them), so it is modelled by a type parameter `J`.
* UUIDs are opaque identifiers; they are modelled as `Nat` and generated
  values (`Uuid::new_v4()`) are taken as explicit parameters.
* Timestamps (`chrono::DateTime<Utc>`) are modelled as `Nat` and every
  `Utc::now()` call site takes the current time as an explicit parameter.
* The Postgres `job_queue` table is modelled as a `List Job`; each SQL
  statement of `crates/db/src/repository/jobs.rs` becomes a pure function
  on that list.  Each repository operation is a single transaction, so an
  interleaving of concurrent workers is a sequence of these atomic
  operations.
* `i32` columns (`attempts`, `max_attempts`) are modelled as `Int`; the
  values reached here stay far away from the `i32` bounds.
-/

namespace RustyAutomation

/-! ## Queue data model (crates/db/src/models.rs, `JobRow`) -/

/-- Row of the `job_queue` table (`JobRow` in `crates/db/src/models.rs`). -/
structure Job (J : Type) where
  id : Nat
  execution_id : Nat
  workflow_id : Nat
  status : String
  attempts : Int
  max_attempts : Int
  payload : J
  created_at : Nat
  updated_at : Nat
  deriving DecidableEq, Repr

/-! ## Queue operations (crates/db/src/repository/jobs.rs) -/

/-- Embeds `enqueue_job`: INSERT a fresh row with
`status='pending', attempts=0, max_attempts=3, created_at=updated_at=now`.
The `id` column is the primary key, so an INSERT with an id already present
fails and leaves the table unchanged; that error case is modelled as a
no-op on the state. -/
def enqueue_job {J : Type} (st : List (Job J)) (id execution_id workflow_id : Nat)
    (payload : J) (now : Nat) : List (Job J) :=
  if st.any (fun j => j.id = id) then st
  else st ++ [⟨id, execution_id, workflow_id, "pending", 0, 3, payload, now, now⟩]

/-- Embeds the SELECT of `fetch_next_job`:
`SELECT … WHERE status = 'pending' ORDER BY created_at ASC LIMIT 1`.
SQL leaves the order of ties on `created_at` unspecified; the model breaks
ties by row order in the list, which is one legal choice. -/
def selectPending {J : Type} (st : List (Job J)) : Option (Job J) :=
  (st.filter (fun j => j.status = "pending")).foldl
    (fun acc j =>
      match acc with
      | none => some j
      | some a => if j.created_at < a.created_at then some j else some a)
    none

/-- Embeds `fetch_next_job`: inside one transaction, SELECT the oldest
pending row (`FOR UPDATE SKIP LOCKED`), and if one exists UPDATE it to
`status='processing', attempts = attempts + 1, updated_at = now`.
The function returns the pair (value returned to the caller, table after
commit).  Faithful to the source, the *returned* value is `row`, the row as
it came back from the SELECT — i.e. before the UPDATE ran. -/
def fetch_next_job {J : Type} (st : List (Job J)) (now : Nat) :
    Option (Job J) × List (Job J) :=
  match selectPending st with
  | none => (none, st)
  | some job =>
      (some job,
       st.map (fun r =>
         if r.id = job.id then
           { r with status := "processing", attempts := r.attempts + 1, updated_at := now }
         else r))

/-- Embeds `complete_job`:
`UPDATE job_queue SET status = 'completed', updated_at = now WHERE id = job_id`. -/
def complete_job {J : Type} (st : List (Job J)) (job_id : Nat) (now : Nat) :
    List (Job J) :=
  st.map (fun r =>
    if r.id = job_id then { r with status := "completed", updated_at := now } else r)

/-- Effect of the `fail_job` UPDATE on one matched row:
`SET status = CASE WHEN attempts >= max_attempts_arg THEN 'dead_lettered'
ELSE 'pending' END, updated_at = now`.  Note there is no status guard in the
WHERE clause, and `attempts` and `created_at` are not touched. -/
def failRow {J : Type} (r : Job J) (max_attempts : Int) (now : Nat) : Job J :=
  { r with
    status := if r.attempts ≥ max_attempts then "dead_lettered" else "pending",
    updated_at := now }

/-- Embeds `fail_job`:
`UPDATE job_queue SET status = CASE …, updated_at = now WHERE id = job_id`. -/
def fail_job {J : Type} (st : List (Job J)) (job_id : Nat) (max_attempts : Int)
    (now : Nat) : List (Job J) :=
  st.map (fun r => if r.id = job_id then failRow r max_attempts now else r)

/-- Status of the (unique) row with the given id, if any. -/
def statusOf {J : Type} (st : List (Job J)) (id : Nat) : Option String :=
  (st.find? (fun j => j.id = id)).map (fun j => j.status)

/-- The table holds pairwise distinct primary keys. -/
def idsNodup {J : Type} (st : List (Job J)) : Prop :=
  (st.map (fun j => j.id)).Nodup

/-! ## Interleavings of the queue operations

Each repository call is one transaction, so a concurrent interleaving of
workers is a sequence of the four atomic operations. -/

/-- One atomic queue operation, with its call-site arguments (fresh UUIDs
and clock readings made explicit). -/
inductive QOp (J : Type) where
  | enqueue (id execution_id workflow_id : Nat) (payload : J) (now : Nat)
  | fetch (now : Nat)
  | complete (job_id : Nat) (now : Nat)
  | fail (job_id : Nat) (max_attempts : Int) (now : Nat)

/-- Apply one operation; the second component is the job observed by a
`fetch` (`None` for the other operations or an empty poll). -/
def applyOp {J : Type} (st : List (Job J)) : QOp J → List (Job J) × Option (Job J)
  | .enqueue id eid wid p now => (enqueue_job st id eid wid p now, none)
  | .fetch now => let r := fetch_next_job st now; (r.2, r.1)
  | .complete id now => (complete_job st id now, none)
  | .fail id maxA now => (fail_job st id maxA now, none)

/-- Caller discipline assumed by the design (§4.4 / §9 of the spec):
`fail_job` is only invoked on a job the caller has claimed, i.e. one that
is currently `processing`. The other operations are unrestricted. -/
def LegalOp {J : Type} (st : List (Job J)) : QOp J → Prop
  | .fail id _ _ => statusOf st id = some "processing"
  | _ => True

/-- A sequence of operations, each legal in the state it runs in. -/
inductive LegalRun {J : Type} : List (Job J) → List (QOp J) → Prop
  | nil (st : List (Job J)) : LegalRun st []
  | cons {st : List (Job J)} {op : QOp J} {ops : List (QOp J)}
      (hop : LegalOp st op) (hrest : LegalRun (applyOp st op).1 ops) :
      LegalRun st (op :: ops)

/-- Run a sequence of operations, collecting every job observed by a fetch. -/
def runOps {J : Type} (st : List (Job J)) : List (QOp J) → List (Job J) × List (Job J)
  | [] => (st, [])
  | op :: ops =>
      let r := applyOp st op
      let rest := runOps r.1 ops
      (rest.1, r.2.toList ++ rest.2)

/-! ## Queue lemmas -/

/-- Mapping an id-preserving row transformation over the table commutes
with looking a row up by id. -/
theorem find?_map_id_pres {J : Type} (g : Job J → Job J)
    (hg : ∀ r, (g r).id = r.id) (st : List (Job J)) (id : Nat) :
    (st.map g).find? (fun r => r.id = id) =
      (st.find? (fun r => r.id = id)).map g := by
  induction st with
  | nil => rfl
  | cons h t ih =>
      by_cases hid : h.id = id
      · rw [List.map_cons, List.find?_cons_of_pos _ (by simp [hg h, hid]),
          List.find?_cons_of_pos _ (by simp [hid])]
        rfl
      · rw [List.map_cons, List.find?_cons_of_neg _ (by simp [hg h, hid]),
          List.find?_cons_of_neg _ (by simp [hid])]
        exact ih

theorem statusOf_map_id_pres {J : Type} (g : Job J → Job J)
    (hg : ∀ r, (g r).id = r.id) (st : List (Job J)) (id : Nat) :
    statusOf (st.map g) id =
      (st.find? (fun r => r.id = id)).map (fun r => (g r).status) := by
  rw [statusOf, find?_map_id_pres g hg st id]
  cases st.find? (fun r => r.id = id) <;> rfl

/-- With distinct primary keys, a row member of the table is the row that a
lookup by its id finds. -/
theorem statusOf_of_mem {J : Type} {st : List (Job J)} {j : Job J}
    (hnd : idsNodup st) (hj : j ∈ st) : statusOf st j.id = some j.status := by
  induction st with
  | nil => exact absurd hj (List.not_mem_nil j)
  | cons h t ih =>
      simp only [idsNodup, List.map_cons, List.nodup_cons] at hnd
      rcases List.mem_cons.1 hj with rfl | hjt
      · simp [statusOf, List.find?]
      · have hne : ¬ h.id = j.id := by
          intro he
          apply hnd.1
          rw [he]
          exact List.mem_map_of_mem (fun r => r.id) hjt
        rw [statusOf, List.find?_cons_of_neg _ (by simp [hne])]
        exact ih hnd.2 hjt

/-- Mapping an id-preserving transformation preserves distinctness of ids. -/
theorem idsNodup_map {J : Type} (g : Job J → Job J)
    (hg : ∀ r, (g r).id = r.id) (st : List (Job J)) (h : idsNodup st) :
    idsNodup (st.map g) := by
  unfold idsNodup at *
  rw [List.map_map]
  have hcomp : ((fun j => j.id) ∘ g) = fun (r : Job J) => r.id := funext (fun r => hg r)
  rw [hcomp]
  exact h

/-- With distinct primary keys, lookup by id of a member row finds that row. -/
theorem find?_of_mem {J : Type} {st : List (Job J)} {j : Job J}
    (hnd : idsNodup st) (hj : j ∈ st) :
    st.find? (fun r => r.id = j.id) = some j := by
  induction st with
  | nil => exact absurd hj (List.not_mem_nil j)
  | cons h t ih =>
      simp only [idsNodup, List.map_cons, List.nodup_cons] at hnd
      rcases List.mem_cons.1 hj with rfl | hjt
      · exact List.find?_cons_of_pos _ (by simp)
      · have hne : ¬ h.id = j.id := by
          intro he
          apply hnd.1
          rw [he]
          exact List.mem_map_of_mem (fun r => r.id) hjt
        rw [List.find?_cons_of_neg _ (by simp [hne])]
        exact ih hnd.2 hjt

/-- The row selected by the `fetch_next_job` SELECT is a pending member of
the table. -/
theorem selectPending_mem {J : Type} {st : List (Job J)} {j : Job J}
    (h : selectPending st = some j) : j ∈ st ∧ j.status = "pending" := by
  have key : ∀ (l : List (Job J)) (acc : Option (Job J)),
      l.foldl (fun acc j =>
        match acc with
        | none => some j
        | some a => if j.created_at < a.created_at then some j else some a) acc = some j →
      acc = some j ∨ j ∈ l := by
    intro l
    induction l with
    | nil => intro acc hacc; exact Or.inl hacc
    | cons x xs ih =>
        intro acc hacc
        rcases ih _ hacc with hstep | hmem
        · cases acc with
          | none =>
              simp only at hstep
              exact Or.inr (by simp [← Option.some_inj.1 hstep])
          | some a =>
              simp only at hstep
              by_cases hlt : x.created_at < a.created_at
              · simp [hlt] at hstep
                exact Or.inr (by simp [← hstep])
              · simp [hlt] at hstep
                exact Or.inl (by simp [← hstep])
        · exact Or.inr (List.mem_cons_of_mem x hmem)
  rcases key _ _ h with hnone | hmem
  · exact absurd hnone (by simp)
  · have := List.mem_filter.1 hmem
    exact ⟨this.1, by simpa using this.2⟩

/-- A job status that the spec calls terminal for the queue. -/
def Resolved (s : Option String) : Prop :=
  s = some "completed" ∨ s = some "dead_lettered"

theorem fetchUpdate_id_pres {J : Type} (job : Job J) (now : Nat) :
    ∀ r : Job J,
      ((fun r : Job J =>
        if r.id = job.id then
          { r with status := "processing", attempts := r.attempts + 1, updated_at := now }
        else r) r).id = r.id := by
  intro r
  dsimp only
  split <;> rfl

theorem completeUpdate_id_pres {J : Type} (job_id : Nat) (now : Nat) :
    ∀ r : Job J,
      ((fun r : Job J =>
        if r.id = job_id then { r with status := "completed", updated_at := now }
        else r) r).id = r.id := by
  intro r
  dsimp only
  split <;> rfl

theorem failUpdate_id_pres {J : Type} (job_id : Nat) (max_attempts : Int) (now : Nat) :
    ∀ r : Job J,
      ((fun r : Job J =>
        if r.id = job_id then failRow r max_attempts now else r) r).id = r.id := by
  intro r
  dsimp only
  split <;> rfl

/-- One legal queue operation keeps primary keys distinct, keeps a
completed or dead-lettered job in a terminal status, and never lets a
fetch observe such a job. -/
theorem applyOp_preserves {J : Type} (st : List (Job J)) (op : QOp J) (id : Nat)
    (hnd : idsNodup st) (hop : LegalOp st op)
    (hres : Resolved (statusOf st id)) :
    idsNodup (applyOp st op).1 ∧ Resolved (statusOf (applyOp st op).1 id) ∧
      ∀ j, (applyOp st op).2 = some j → j.id ≠ id := by
  have hfind : ∃ r, st.find? (fun r => r.id = id) = some r ∧ Resolved (some r.status) := by
    rcases hres with h | h <;>
      · rcases Option.map_eq_some'.1 h with ⟨r, hr, hs⟩
        exact ⟨r, hr, by rw [hs] at *; first | exact Or.inl rfl | exact Or.inr rfl⟩
  obtain ⟨r0, hr0, hr0s⟩ := hfind
  cases op with
  | enqueue nid eid wid p now =>
      refine ⟨?_, ?_, by intro j h; cases h⟩ <;> dsimp only [applyOp] <;> unfold enqueue_job <;>
        by_cases hany : st.any (fun j => j.id = nid)
      · rw [if_pos hany]; exact hnd
      · rw [if_neg hany]
        unfold idsNodup at *
        rw [List.map_append]
        refine List.Nodup.append hnd (by simp) ?_
        intro x hx hx'
        simp only [List.map_cons, List.map_nil, List.mem_singleton] at hx'
        rcases List.mem_map.1 hx with ⟨jr, hjr, rfl⟩
        rw [List.any_eq_true] at hany
        exact hany ⟨jr, hjr, by simpa using hx'⟩
      · rw [if_pos hany]; exact hres
      · rw [if_neg hany]
        unfold statusOf at *
        rw [List.find?_append, hr0]
        rcases hr0s with h | h <;> rw [Option.or] <;>
          simp only [Option.map_some'] <;>
          [exact Or.inl (by rw [← h]); exact Or.inr (by rw [← h])]
  | fetch now =>
      dsimp only [applyOp]
      unfold fetch_next_job
      cases hsel : selectPending st with
      | none => exact ⟨by simpa using hnd, by simpa using hres, by intro j h; cases h⟩
      | some job =>
          obtain ⟨hmem, hpend⟩ := selectPending_mem hsel
          have hjid : job.id ≠ id := by
            intro he
            have := statusOf_of_mem hnd hmem
            rw [he] at this
            rcases hres with h | h <;> rw [this] at h <;>
              exact absurd (Option.some_inj.1 h) (by rw [hpend]; decide)
          refine ⟨idsNodup_map _ (fetchUpdate_id_pres job now) st hnd, ?_, ?_⟩
          · rw [statusOf_map_id_pres _ (fetchUpdate_id_pres job now), hr0]
            have hrid : r0.id = id := by simpa using List.find?_some hr0
            have : ¬ r0.id = job.id := by rw [hrid]; exact fun h => hjid h.symm
            simp only [Option.map_some', this, if_false]
            exact hr0s
          · intro j h
            simp only [Option.some_inj] at h
            rw [← h]
            exact hjid
  | complete tid now =>
      dsimp only [applyOp]
      refine ⟨idsNodup_map _ (completeUpdate_id_pres tid now) st hnd, ?_,
        by intro j h; cases h⟩
      unfold complete_job
      rw [statusOf_map_id_pres _ (completeUpdate_id_pres tid now), hr0]
      simp only [Option.map_some']
      by_cases hc : r0.id = tid
      · simp only [hc, if_true]
        exact Or.inl rfl
      · simp only [hc, if_false]
        exact hr0s
  | fail tid maxA now =>
      dsimp only [applyOp]
      refine ⟨idsNodup_map _ (failUpdate_id_pres tid maxA now) st hnd, ?_,
        by intro j h; cases h⟩
      have htid : tid ≠ id := by
        intro he
        unfold LegalOp at hop
        rw [he] at hop
        rcases hres with h | h <;> rw [hop] at h <;>
          exact absurd (Option.some_inj.1 h) (by decide)
      unfold fail_job
      rw [statusOf_map_id_pres _ (failUpdate_id_pres tid maxA now), hr0]
      have hrid : r0.id = id := by simpa using List.find?_some hr0
      have : ¬ r0.id = tid := by rw [hrid]; exact fun h => htid h.symm
      simp only [Option.map_some', this, if_false]
      exact hr0s

/-! ## Claim theorems about the queue -/

/-- Claim C9: for every call `fail_job(job_id, max_attempts)` on a job in
the table, the job's status becomes `dead_lettered` when
`attempts ≥ max_attempts` and `pending` otherwise, `updated_at` is stamped
with the call time, and `attempts` and `created_at` are left unchanged. -/
theorem C9_fail_job_semantics {J : Type} (st : List (Job J)) (j : Job J)
    (max_attempts : Int) (now : Nat) (hnd : idsNodup st) (hj : j ∈ st) :
    ∃ j', (fail_job st j.id max_attempts now).find? (fun r => r.id = j.id) = some j' ∧
      j'.status = (if j.attempts ≥ max_attempts then "dead_lettered" else "pending") ∧
      j'.updated_at = now ∧ j'.attempts = j.attempts ∧ j'.created_at = j.created_at := by
  refine ⟨failRow j max_attempts now, ?_, rfl, rfl, rfl, rfl⟩
  unfold fail_job
  rw [find?_map_id_pres _ (failUpdate_id_pres j.id max_attempts now) st j.id,
    find?_of_mem hnd hj]
  simp [failRow]

theorem C9_fail_job_semantics_witness :
    ∃ j', (fail_job [(⟨1, 10, 20, "processing", 1, 3, 0, 0, 1⟩ : Job Nat)] 1 3 2).find?
        (fun r => r.id = 1) = some j' ∧
      j'.status = (if (1 : Int) ≥ 3 then "dead_lettered" else "pending") ∧
      j'.updated_at = 2 ∧ j'.attempts = 1 ∧ j'.created_at = 0 :=
  C9_fail_job_semantics [⟨1, 10, 20, "processing", 1, 3, 0, 0, 1⟩]
    ⟨1, 10, 20, "processing", 1, 3, 0, 0, 1⟩ 3 2 (by unfold idsNodup; decide) (by simp)

/-- Claim C1: contrary to the claim, `fetch_next_job` returns the row as it
was SELECTed *before* the claiming UPDATE ran: on a freshly enqueued job the
returned value still shows `status='pending'`, `attempts=0` and the enqueue
time in `updated_at`, while the table row itself is updated to
`status='processing'`, `attempts=1`, `updated_at=claim time`. -/
theorem C1_fetch_returns_preclaim_snapshot :
    (fetch_next_job (enqueue_job ([] : List (Job Nat)) 1 10 20 0 5) 9 =
      (some ⟨1, 10, 20, "pending", 0, 3, 0, 5, 5⟩,
       [⟨1, 10, 20, "processing", 1, 3, 0, 5, 9⟩])) ∧
    (fetch_next_job (enqueue_job ([] : List (Job Nat)) 1 10 20 0 5) 9).1.map
        (fun j => j.status) ≠ some "processing" ∧
    (fetch_next_job (enqueue_job ([] : List (Job Nat)) 1 10 20 0 5) 9).1.map
        (fun j => j.attempts) ≠ some 1 := by
  refine ⟨rfl, ?_, ?_⟩ <;> decide

/-- Claim C3 counterexample: with the queue operations unrestricted, a job
observed `completed` IS subsequently returned by `claim_next`: enqueue at
t=0, claim at t=1 (attempts becomes 1), complete at t=2, then `fail_job`
at t=3 with `max_attempts = 3` resets the completed job to `pending`
(1 < 3 and no status guard exists), and the fetch at t=4 re-claims it. -/
theorem C3_completed_job_reclaimed :
    statusOf
        (complete_job
          (fetch_next_job (enqueue_job ([] : List (Job Nat)) 1 10 20 0 0) 1).2 1 2) 1 =
      some "completed" ∧
    (fetch_next_job
        (fail_job
          (complete_job
            (fetch_next_job (enqueue_job ([] : List (Job Nat)) 1 10 20 0 0) 1).2 1 2)
          1 3 3) 4).1 =
      some ⟨1, 10, 20, "pending", 1, 3, 0, 0, 3⟩ := by
  exact ⟨rfl, rfl⟩

/-- Claim C3 (amended): under the caller discipline the design assumes —
`fail_job` is only invoked on a job that is currently `processing` — a job
once observed in status `completed` or `dead_lettered` is never
subsequently returned by `claim_next`, for every interleaving of the four
queue operations. -/
theorem C3_resolved_never_reclaimed {J : Type} (ops : List (QOp J)) :
    ∀ (st : List (Job J)) (id : Nat), idsNodup st →
      Resolved (statusOf st id) →
      LegalRun st ops →
      ∀ j ∈ (runOps st ops).2, j.id ≠ id := by
  induction ops with
  | nil =>
      intro st id _ _ _ j hj
      exact absurd hj (List.not_mem_nil j)
  | cons op ops ih =>
      intro st id hnd hres hleg j hj
      obtain ⟨hop, hrest⟩ : LegalOp st op ∧ LegalRun (applyOp st op).1 ops := by
        cases hleg with
        | cons hop hrest => exact ⟨hop, hrest⟩
      obtain ⟨hnd', hres', hobs⟩ := applyOp_preserves st op id hnd hop hres
      simp only [runOps, List.mem_append] at hj
      rcases hj with hj | hj
      · rcases hob : (applyOp st op).2 with _ | j'
        · rw [hob] at hj
          exact absurd hj (List.not_mem_nil j)
        · rw [hob] at hj
          simp only [Option.toList_some, List.mem_singleton] at hj
          rw [hj]
          exact hobs j' hob
      · exact ih (applyOp st op).1 id hnd' hres' hrest j hj

theorem C3_resolved_never_reclaimed_witness :
    (1 : Nat) ∉ ((runOps [(⟨1, 10, 20, "completed", 1, 3, 0, 0, 2⟩ : Job Nat),
        ⟨2, 11, 20, "pending", 0, 3, 0, 0, 3⟩]
        [QOp.fetch 4, QOp.fail 2 3 5, QOp.fetch 6]).2.map (fun j => j.id)) := by
  intro hmem
  obtain ⟨j, hj, hid⟩ := List.mem_map.1 hmem
  exact C3_resolved_never_reclaimed
    [QOp.fetch 4, QOp.fail 2 3 5, QOp.fetch 6]
    [(⟨1, 10, 20, "completed", 1, 3, 0, 0, 2⟩ : Job Nat),
      ⟨2, 11, 20, "pending", 0, 3, 0, 0, 3⟩] 1
    (by unfold idsNodup; decide) (Or.inl (by decide))
    (.cons trivial (.cons (show statusOf _ 2 = some "processing" by decide)
      (.cons trivial (.nil _)))) j hj hid

/-! ## Engine data model (crates/engine/src/models.rs) -/

/-- How a workflow is started (`Trigger`). -/
inductive Trigger where
  | Webhook (path : String)
  | Manual
  | Cron (expression : String)
  deriving DecidableEq, Repr

/-- One step of the workflow graph (`NodeDefinition`). -/
structure NodeDefinition (J : Type) where
  id : String
  node_type : String
  config : J
  deriving DecidableEq, Repr

/-- Directed edge of the workflow graph (`Edge`); the source fields are
named `from` and `to`, renamed here because `from` is a Lean keyword. -/
structure Edge where
  efrom : String
  eto : String
  deriving DecidableEq, Repr

/-- A complete workflow definition (`Workflow`). -/
structure Workflow (J : Type) where
  id : Nat
  name : String
  trigger : Trigger
  nodes : List (NodeDefinition J)
  edges : List Edge
  created_at : Nat
  deriving DecidableEq, Repr

/-- Engine-level errors (`EngineError` in crates/engine/src/error.rs).
The `Database` case exists in the source; in this model the repository
operations are infallible, so it is never produced. -/
inductive EngineError where
  | DuplicateNodeId (id : String)
  | UnknownNodeReference (node_id : String) (side : String)
  | CycleDetected
  | NodeFatal (node_id : String) (message : String)
  | NodeRetryExhausted (node_id : String) (message : String)
  | Database (message : String)
  deriving DecidableEq, Repr

/-! ## DAG validator (crates/engine/src/dag.rs)

Step 3 of `validate_dag` seeds Kahn's queue by iterating over the
`in_degree` HashMap.  Once steps 1 and 2 have passed, that map's keys are
exactly the (distinct) node ids, but Rust's `std::collections::HashMap`
uses a per-instance randomized hasher, so the iteration order is an
unspecified permutation of the node ids.  The model takes that iteration
order as the explicit parameter `ord`; theorems quantify over every
permutation of the node ids. -/

/-- Step 1 of `validate_dag`: scan the nodes, returning the first node id
already seen (the `HashSet` of seen ids is modelled as a list). -/
def dupCheck {J : Type} : List (NodeDefinition J) → List String → Option String
  | [], _ => none
  | n :: ns, seen => if n.id ∈ seen then some n.id else dupCheck ns (n.id :: seen)

/-- Step 2 of `validate_dag`: for each edge in declared order, check `from`
then `to` against the node-id set. -/
def edgeEndpointCheck : List Edge → List String → Option (String × String)
  | [], _ => none
  | e :: es, ids =>
      if e.efrom ∉ ids then some (e.efrom, "from")
      else if e.eto ∉ ids then some (e.eto, "to")
      else edgeEndpointCheck es ids

/-- Adjacency list of a node: the `to` endpoint of each of its out-edges,
pushed in declared edge order. -/
def adjacency (edges : List Edge) (v : String) : List String :=
  (edges.filter (fun e => e.efrom = v)).map (fun e => e.eto)

/-- Initial in-degree: one unit per incoming edge (duplicate edges count
separately, as in the source's `+= 1` per edge). -/
def inDegree0 (edges : List Edge) (v : String) : Nat :=
  (edges.filter (fun e => e.eto = v)).length

/-- Inner loop of Kahn's algorithm: decrement the in-degree of each
neighbour of the popped node in order, pushing a neighbour the moment its
degree hits zero.  Rust decrements a `usize` (which would underflow below
zero); `Nat` subtraction truncates instead, but a degree is never
decremented below zero in any state reachable from `validate_dag`
because in-degrees count incoming edges exactly. -/
def processNeighbors : List String → (String → Nat) → List String →
    ((String → Nat) × List String)
  | [], deg, queue => (deg, queue)
  | v :: vs, deg, queue =>
      let d := deg v - 1
      processNeighbors vs (fun x => if x = v then d else deg x)
        (if d = 0 then queue ++ [v] else queue)

/-- Outer loop of Kahn's algorithm (`while let Some(node_id) = queue.pop_front()`).
The Rust loop needs no fuel because every node enters the queue at most
once; `fuel = number of nodes` dominates the number of iterations that can
occur from `validate_dag`'s initial state, so this is the same function on
those states. -/
def kahnLoop (edges : List Edge) : Nat → List String → (String → Nat) →
    List String → List String
  | _, [], _, sorted => sorted
  | 0, _ :: _, _, sorted => sorted
  | fuel + 1, q :: rest, deg, sorted =>
      let s := processNeighbors (adjacency edges q) deg rest
      kahnLoop edges fuel s.2 s.1 (sorted ++ [q])

/-- Embeds `validate_dag` (crates/engine/src/dag.rs).  `ord` is the
iteration order of the `in_degree` HashMap (an arbitrary permutation of
the node ids, see the section comment). -/
def validate_dag {J : Type} (ord : List String) (w : Workflow J) :
    Except EngineError (List String) :=
  match dupCheck w.nodes [] with
  | some id => .error (.DuplicateNodeId id)
  | none =>
      match edgeEndpointCheck w.edges (w.nodes.map (fun n => n.id)) with
      | some r => .error (.UnknownNodeReference r.1 r.2)
      | none =>
          let deg := inDegree0 w.edges
          let queue := ord.filter (fun v => deg v = 0)
          let sorted := kahnLoop w.edges w.nodes.length queue deg []
          if sorted.length = w.nodes.length then .ok sorted
          else .error .CycleDetected

/-! ## Correctness machinery for the validator -/

/-- Multiplicity of an element in a list of names. -/
def cnt (v : String) (l : List String) : Nat :=
  (l.filter (fun x => x = v)).length

theorem cnt_nil (v : String) : cnt v [] = 0 := rfl

theorem cnt_cons (v w : String) (l : List String) :
    cnt v (w :: l) = (if w = v then 1 else 0) + cnt v l := by
  unfold cnt
  by_cases h : w = v
  · rw [List.filter_cons_of_pos (by simp [h]), if_pos h]
    simp [Nat.add_comm]
  · rw [List.filter_cons_of_neg (by simp [h]), if_neg h]
    simp

theorem cnt_pos_of_mem {v : String} {l : List String} (h : v ∈ l) : 0 < cnt v l := by
  induction l with
  | nil => cases h
  | cons w ws ih =>
      rw [cnt_cons]
      rcases List.mem_cons.1 h with rfl | hm
      · simp
      · have := ih hm
        omega

theorem mem_of_cnt_pos {v : String} {l : List String} (h : 0 < cnt v l) : v ∈ l := by
  induction l with
  | nil => simp [cnt_nil] at h
  | cons w ws ih =>
      rw [cnt_cons] at h
      by_cases hw : w = v
      · rw [hw]; exact List.mem_cons_self v ws
      · rw [if_neg hw] at h
        exact List.mem_cons_of_mem w (ih (by omega))

/-- Position of the first occurrence, within the left part of an append. -/
theorem indexOf_append_left {x : String} {l₁ : List String} (l₂ : List String)
    (h : x ∈ l₁) : (l₁ ++ l₂).indexOf x = l₁.indexOf x := by
  induction l₁ with
  | nil => cases h
  | cons a l ih =>
      by_cases hx : a = x
      · simp only [List.cons_append, List.indexOf_cons, hx]
        simp
      · have hx' : (a == x) = false := by
          simp only [beq_eq_false_iff_ne, ne_eq]
          exact hx
        simp only [List.cons_append, List.indexOf_cons, hx', cond_false]
        have hm : x ∈ l := by
          rcases List.mem_cons.1 h with rfl | hm
          · exact absurd rfl hx
          · exact hm
        rw [ih hm]

/-- Position of an element that avoids the left part of an append. -/
theorem indexOf_append_right {x : String} {l₁ : List String} (l₂ : List String)
    (h : x ∉ l₁) : (l₁ ++ l₂).indexOf x = l₁.length + l₂.indexOf x := by
  induction l₁ with
  | nil => simp
  | cons a l ih =>
      have hx : (a == x) = false := by
        simp only [beq_eq_false_iff_ne, ne_eq]
        intro he
        exact h (he ▸ List.mem_cons_self a l)
      have hm : x ∉ l := fun hm => h (List.mem_cons_of_mem a hm)
      simp only [List.cons_append, List.indexOf_cons, hx, cond_false, List.length_cons]
      rw [ih hm]
      omega

/-- Number of incoming edges of `v` whose source has not been emitted yet. -/
def inCnt (edges : List Edge) (sorted : List String) (v : String) : Nat :=
  (edges.filter (fun e => e.eto = v ∧ e.efrom ∉ sorted)).length

theorem inCnt_nil_sorted (edges : List Edge) (v : String) :
    inCnt edges [] v = inDegree0 edges v := by
  unfold inCnt inDegree0
  congr 1
  apply List.filter_congr
  intro e _
  simp

/-- Multiplicity of `v` among the neighbours of `q` is the number of
`q → v` edges. -/
theorem cnt_adjacency (edges : List Edge) (q v : String) :
    cnt v (adjacency edges q) =
      (edges.filter (fun e => e.efrom = q ∧ e.eto = v)).length := by
  induction edges with
  | nil => rfl
  | cons e es ih =>
      unfold adjacency at *
      by_cases hq : e.efrom = q
      · rw [List.filter_cons_of_pos (by simp [hq]), List.map_cons, cnt_cons]
        by_cases hv : e.eto = v
        · rw [List.filter_cons_of_pos (by simp [hq, hv]), if_pos hv, List.length_cons, ih]
          omega
        · rw [List.filter_cons_of_neg (by simp [hq, hv]), if_neg hv, ih]
          omega
      · rw [List.filter_cons_of_neg (by simp [hq]),
          List.filter_cons_of_neg (by simp [hq]), ih]

/-- Emitting `q` removes exactly the `q → v` edges from the pending
in-degree of `v`. -/
theorem inCnt_emit (edges : List Edge) (sorted : List String) (q : String)
    (hq : q ∉ sorted) (v : String) :
    inCnt edges sorted v =
      inCnt edges (sorted ++ [q]) v + cnt v (adjacency edges q) := by
  rw [cnt_adjacency]
  induction edges with
  | nil => rfl
  | cons e es ih =>
      unfold inCnt at *
      by_cases hv : e.eto = v
      · by_cases hf : e.efrom = q
        · rw [List.filter_cons_of_pos (by simp [hv]; rw [hf]; exact hq),
            List.filter_cons_of_neg (by simp [hv, hf]),
            List.filter_cons_of_pos (by simp [hf, hv])]
          simp only [List.length_cons]
          rw [ih]
          omega
        · by_cases hs : e.efrom ∈ sorted
          · rw [List.filter_cons_of_neg (by simp [hs]),
              List.filter_cons_of_neg (by simp [hs]),
              List.filter_cons_of_neg (by simp [hf]), ih]
          · rw [List.filter_cons_of_pos (by simp [hv, hs]),
              List.filter_cons_of_pos (by simp [hv]; exact ⟨hs, fun he => hf he⟩),
              List.filter_cons_of_neg (by simp [hf])]
            simp only [List.length_cons]
            rw [ih]
            omega
      · rw [List.filter_cons_of_neg (by simp [hv]),
          List.filter_cons_of_neg (by simp [hv]),
          List.filter_cons_of_neg (by simp [hv]), ih]

/-- Characterization of the inner Kahn loop: provided no degree is driven
below zero (which `validate_dag` guarantees, since degrees count incoming
edges exactly), the final degree of `v` is the initial degree minus the
multiplicity of `v` among the processed neighbours, and the nodes pushed
are exactly those whose degree is consumed to zero, each pushed once. -/
theorem processNeighbors_spec (ns : List String) :
    ∀ (deg : String → Nat) (queue : List String),
      (∀ v, cnt v ns ≤ deg v) →
      ((processNeighbors ns deg queue).1 = fun v => deg v - cnt v ns) ∧
      ∃ pushed, (processNeighbors ns deg queue).2 = queue ++ pushed ∧
        pushed.Nodup ∧ ∀ v, v ∈ pushed ↔ v ∈ ns ∧ deg v = cnt v ns := by
  induction ns with
  | nil =>
      intro deg queue _
      refine ⟨funext fun v => by simp [processNeighbors, cnt_nil], [], by
        simp [processNeighbors], List.nodup_nil, fun v => by simp⟩
  | cons v vs ih =>
      intro deg queue h
      have hv1 : 1 ≤ deg v := by
        have := h v
        rw [cnt_cons, if_pos rfl] at this
        omega
      have hnext : ∀ u, cnt u vs ≤ (fun x => if x = v then deg v - 1 else deg x) u := by
        intro u
        have hcu := h u
        rw [cnt_cons] at hcu
        dsimp only
        by_cases hu : u = v
        · rw [if_pos hu]
          rw [if_pos hu.symm] at hcu
          have hdu : deg u = deg v := by rw [hu]
          omega
        · rw [if_neg (fun he => hu he.symm)] at hcu
          rw [if_neg hu]
          omega
      by_cases hd : deg v - 1 = 0
      · have hstep :
            processNeighbors (v :: vs) deg queue =
              processNeighbors vs (fun x => if x = v then deg v - 1 else deg x)
                (queue ++ [v]) := by
          simp [processNeighbors, hd]
        obtain ⟨hdeg, pushed, hq, hnd, hmem⟩ := ih _ (queue ++ [v]) hnext
        have hdegv : deg v = 1 := by omega
        have hvnotvs : v ∉ vs := by
          intro hmem'
          have := h v
          rw [cnt_cons, if_pos rfl] at this
          have := cnt_pos_of_mem hmem'
          omega
        refine ⟨?_, v :: pushed, ?_, ?_, ?_⟩
        · rw [hstep, hdeg]
          funext u
          by_cases hu : u = v
          · rw [if_pos hu, cnt_cons, if_pos hu.symm, hu]
            omega
          · rw [if_neg hu, cnt_cons, if_neg (fun he => hu he.symm)]
            omega
        · rw [hstep, hq, List.append_assoc]
          rfl
        · refine List.nodup_cons.2 ⟨?_, hnd⟩
          intro hvp
          exact hvnotvs ((hmem v).1 hvp).1
        · intro u
          constructor
          · intro hu
            rcases List.mem_cons.1 hu with rfl | hup
            · exact ⟨List.mem_cons_self u vs, by
                rw [cnt_cons, if_pos rfl]
                have : cnt u vs = 0 := by
                  by_contra hc
                  exact hvnotvs (mem_of_cnt_pos (Nat.pos_of_ne_zero hc))
                omega⟩
            · obtain ⟨humem, hueq⟩ := (hmem u).1 hup
              have huv : ¬ u = v := by
                intro he
                exact hvnotvs (he ▸ humem)
              refine ⟨List.mem_cons_of_mem v humem, ?_⟩
              rw [cnt_cons, if_neg (fun he => huv he.symm)]
              simpa [if_neg huv] using hueq
          · intro ⟨humem, hueq⟩
            by_cases huv : u = v
            · exact huv ▸ List.mem_cons_self v pushed
            · have humem' : u ∈ vs := by
                rcases List.mem_cons.1 humem with rfl | hm
                · exact absurd rfl huv
                · exact hm
              refine List.mem_cons_of_mem v ((hmem u).2 ⟨humem', ?_⟩)
              rw [cnt_cons, if_neg (fun he => huv he.symm)] at hueq
              simpa [if_neg huv] using hueq
      · have hstep :
            processNeighbors (v :: vs) deg queue =
              processNeighbors vs (fun x => if x = v then deg v - 1 else deg x) queue := by
          simp [processNeighbors, hd]
        obtain ⟨hdeg, pushed, hq, hnd, hmem⟩ := ih _ queue hnext
        refine ⟨?_, pushed, by rw [hstep, hq], hnd, ?_⟩
        · rw [hstep, hdeg]
          funext u
          by_cases hu : u = v
          · rw [if_pos hu, cnt_cons, if_pos hu.symm, hu]
            omega
          · rw [if_neg hu, cnt_cons, if_neg (fun he => hu he.symm)]
            omega
        · intro u
          rw [hmem u]
          constructor
          · intro ⟨hm, he⟩
            refine ⟨List.mem_cons_of_mem v hm, ?_⟩
            rw [cnt_cons]
            by_cases huv : u = v
            · rw [if_pos huv] at he
              rw [if_pos huv.symm]
              have hdu : deg u = deg v := by rw [huv]
              omega
            · rw [if_neg huv] at he
              rw [if_neg (fun heq => huv heq.symm)]
              omega
          · intro ⟨hm, he⟩
            rw [cnt_cons] at he
            by_cases huv : u = v
            · rw [if_pos huv.symm] at he
              have hdu : deg u = deg v := by rw [huv]
              have hm' : u ∈ vs := by
                by_cases hc : cnt u vs = 0
                · exfalso
                  omega
                · exact mem_of_cnt_pos (Nat.pos_of_ne_zero hc)
              refine ⟨hm', ?_⟩
              rw [if_pos huv]
              omega
            · rw [if_neg (fun heq => huv heq.symm)] at he
              have hm' : u ∈ vs := by
                rcases List.mem_cons.1 hm with heq | hmm
                · exact absurd heq huv
                · exact hmm
              refine ⟨hm', ?_⟩
              rw [if_neg huv]
              omega

/-- Loop invariant of Kahn's algorithm as implemented in `validate_dag`:
the emitted and queued nodes are distinct declared nodes, the degree map
counts incoming edges from not-yet-emitted sources, queued nodes have no
pending in-edges, and the emitted prefix respects every edge. -/
structure KahnInv (edges : List Edge) (ids : List String) (queue : List String)
    (deg : String → Nat) (sorted : List String) : Prop where
  nodup : (sorted ++ queue).Nodup
  sub : ∀ x ∈ sorted ++ queue, x ∈ ids
  degSpec : ∀ v, deg v = inCnt edges sorted v
  qZero : ∀ q ∈ queue, deg q = 0
  orderOk : ∀ e ∈ edges, e.eto ∈ sorted →
    e.efrom ∈ sorted ∧ sorted.indexOf e.efrom < sorted.indexOf e.eto

theorem mem_adjacency {edges : List Edge} {q v : String}
    (h : v ∈ adjacency edges q) : ∃ e ∈ edges, e.efrom = q ∧ e.eto = v := by
  unfold adjacency at h
  obtain ⟨e, he, rfl⟩ := List.mem_map.1 h
  obtain ⟨hee, hq⟩ := List.mem_filter.1 he
  exact ⟨e, hee, of_decide_eq_true hq, rfl⟩

/-- If some incoming edge of `v` has an unemitted source, the pending
in-degree of `v` is positive. -/
theorem inCnt_pos {edges : List Edge} {sorted : List String} {e : Edge}
    (he : e ∈ edges) (hto : e.efrom ∉ sorted) : 0 < inCnt edges sorted e.eto := by
  unfold inCnt
  have : e ∈ edges.filter (fun x => x.eto = e.eto ∧ x.efrom ∉ sorted) :=
    List.mem_filter.2 ⟨he, by simp [hto]⟩
  exact List.length_pos.2 (fun hnil => by rw [hnil] at this; cases this)

/-- Conversely, positive pending in-degree exhibits such an edge. -/
theorem exists_edge_of_inCnt_pos {edges : List Edge} {sorted : List String}
    {v : String} (h : 0 < inCnt edges sorted v) :
    ∃ e ∈ edges, e.eto = v ∧ e.efrom ∉ sorted := by
  unfold inCnt at h
  obtain ⟨e, he⟩ := List.exists_mem_of_length_pos h
  obtain ⟨hee, hp⟩ := List.mem_filter.1 he
  have := of_decide_eq_true hp
  exact ⟨e, hee, this.1, this.2⟩

/-- One iteration of the outer Kahn loop preserves the invariant. -/
theorem kahnInv_step (edges : List Edge) (ids : List String)
    (hedge : ∀ e ∈ edges, e.efrom ∈ ids ∧ e.eto ∈ ids)
    (q : String) (rest : List String) (deg : String → Nat) (sorted : List String)
    (inv : KahnInv edges ids (q :: rest) deg sorted) :
    KahnInv edges ids (processNeighbors (adjacency edges q) deg rest).2
      (processNeighbors (adjacency edges q) deg rest).1 (sorted ++ [q]) := by
  have hassoc : sorted ++ q :: rest = (sorted ++ [q]) ++ rest := by simp
  have hqs : q ∉ sorted := by
    intro hq
    exact List.disjoint_of_nodup_append inv.nodup hq (List.mem_cons_self q rest)
  have hpre : ∀ v, cnt v (adjacency edges q) ≤ deg v := by
    intro v
    rw [inv.degSpec v, inCnt_emit edges sorted q hqs v]
    omega
  obtain ⟨hdeg, pushed, hq2, hndp, hmemp⟩ :=
    processNeighbors_spec (adjacency edges q) deg rest hpre
  have hdegq : deg q = 0 := inv.qZero q (List.mem_cons_self q rest)
  have hpushedFacts : ∀ v ∈ pushed,
      v ∉ sorted ∧ v ≠ q ∧ v ∉ rest ∧ v ∈ ids := by
    intro v hv
    obtain ⟨hadj, hcnt⟩ := (hmemp v).1 hv
    have hpos : 0 < deg v := by
      have := cnt_pos_of_mem hadj
      omega
    refine ⟨?_, ?_, ?_, ?_⟩
    · intro hvs
      rw [inv.degSpec v] at hpos
      obtain ⟨e, hee, heto, hefrom⟩ := exists_edge_of_inCnt_pos hpos
      exact hefrom (inv.orderOk e hee (by rw [heto]; exact hvs)).1
    · intro he
      rw [he] at hpos
      omega
    · intro hvr
      have := inv.qZero v (List.mem_cons_of_mem q hvr)
      omega
    · obtain ⟨e, hee, _, heto⟩ := mem_adjacency hadj
      exact heto ▸ (hedge e hee).2
  constructor
  · rw [hq2]
    have base : ((sorted ++ [q]) ++ rest).Nodup := hassoc ▸ inv.nodup
    rw [show (sorted ++ [q]) ++ (rest ++ pushed) = ((sorted ++ [q]) ++ rest) ++ pushed by
      simp]
    rw [List.nodup_append]
    refine ⟨base, hndp, ?_⟩
    intro x hx hxp
    obtain ⟨hns, hnq, hnr, _⟩ := hpushedFacts x hxp
    rcases List.mem_append.1 hx with hx1 | hx2
    · rcases List.mem_append.1 hx1 with hx3 | hx4
      · exact hns hx3
      · exact hnq (List.mem_singleton.1 hx4)
    · exact hnr hx2
  · intro x hx
    rw [hq2] at hx
    rcases List.mem_append.1 hx with hx1 | hx2
    · rcases List.mem_append.1 hx1 with hx3 | hx4
      · exact inv.sub x (List.mem_append_left _ hx3)
      · exact inv.sub x (List.mem_append_right _
          ((List.mem_singleton.1 hx4) ▸ List.mem_cons_self q rest))
    · rcases List.mem_append.1 hx2 with hx3 | hx4
      · exact inv.sub x (List.mem_append_right _ (List.mem_cons_of_mem q hx3))
      · exact (hpushedFacts x hx4).2.2.2
  · intro v
    rw [hdeg]
    dsimp only
    have hemit := inCnt_emit edges sorted q hqs v
    rw [inv.degSpec v]
    omega
  · intro x hx
    rw [hq2] at hx
    rw [hdeg]
    dsimp only
    rcases List.mem_append.1 hx with hx1 | hx2
    · have := inv.qZero x (List.mem_cons_of_mem q hx1)
      omega
    · have := ((hmemp x).1 hx2).2
      omega
  · intro e hee hto
    rcases List.mem_append.1 hto with hto1 | hto2
    · obtain ⟨hfs, hlt⟩ := inv.orderOk e hee hto1
      refine ⟨List.mem_append_left _ hfs, ?_⟩
      rw [indexOf_append_left [q] hfs, indexOf_append_left [q] hto1]
      exact hlt
    · have htoq : e.eto = q := List.mem_singleton.1 hto2
      have hfs : e.efrom ∈ sorted := by
        by_contra hfs
        have hpos : 0 < inCnt edges sorted e.eto := inCnt_pos hee hfs
        rw [htoq] at hpos
        rw [inv.degSpec q] at hdegq
        omega
      refine ⟨List.mem_append_left _ hfs, ?_⟩
      rw [indexOf_append_left [q] hfs, htoq, indexOf_append_right [q] hqs]
      have := List.indexOf_lt_length.2 hfs
      omega

/-- The invariant holds whenever the outer loop stops, for any fuel. -/
theorem kahnLoop_inv (edges : List Edge) (ids : List String)
    (hedge : ∀ e ∈ edges, e.efrom ∈ ids ∧ e.eto ∈ ids) :
    ∀ (fuel : Nat) (queue : List String) (deg : String → Nat) (sorted : List String),
      KahnInv edges ids queue deg sorted →
      ∃ queue2 deg2, KahnInv edges ids queue2 deg2 (kahnLoop edges fuel queue deg sorted) := by
  intro fuel
  induction fuel with
  | zero =>
      intro queue deg sorted inv
      cases queue with
      | nil => exact ⟨[], deg, by rw [kahnLoop]; exact inv⟩
      | cons q rest => exact ⟨q :: rest, deg, by rw [kahnLoop]; exact inv⟩
  | succ fuel ih =>
      intro queue deg sorted inv
      cases queue with
      | nil => exact ⟨[], deg, by rw [kahnLoop]; exact inv⟩
      | cons q rest =>
          rw [kahnLoop]
          exact ih _ _ _ (kahnInv_step edges ids hedge q rest deg sorted inv)

/-- When step 1 of `validate_dag` reports no duplicate, the node ids are
pairwise distinct and avoid the seen-set. -/
theorem dupCheck_none {J : Type} :
    ∀ (ns : List (NodeDefinition J)) (seen : List String),
      dupCheck ns seen = none →
      (ns.map (fun n => n.id)).Nodup ∧ ∀ i ∈ ns.map (fun n => n.id), i ∉ seen := by
  intro ns
  induction ns with
  | nil => intro seen _; exact ⟨List.nodup_nil, by simp⟩
  | cons n ns ih =>
      intro seen h
      rw [dupCheck] at h
      by_cases hm : n.id ∈ seen
      · rw [if_pos hm] at h; cases h
      · rw [if_neg hm] at h
        obtain ⟨hnd, hdisj⟩ := ih _ h
        refine ⟨List.nodup_cons.2 ⟨?_, hnd⟩, ?_⟩
        · intro hmem
          exact (hdisj _ hmem) (List.mem_cons_self _ _)
        · intro i hi
          rw [List.map_cons] at hi
          rcases List.mem_cons.1 hi with rfl | hi2
          · exact hm
          · intro hiseen
            exact (hdisj i hi2) (List.mem_cons_of_mem _ hiseen)

/-- When step 2 of `validate_dag` reports no unknown reference, every edge
endpoint is a declared node id. -/
theorem edgeEndpointCheck_none :
    ∀ (edges : List Edge) (ids : List String),
      edgeEndpointCheck edges ids = none →
      ∀ e ∈ edges, e.efrom ∈ ids ∧ e.eto ∈ ids := by
  intro edges
  induction edges with
  | nil => intro ids _ e he; cases he
  | cons e es ih =>
      intro ids h
      rw [edgeEndpointCheck] at h
      by_cases h1 : e.efrom ∉ ids
      · rw [if_pos h1] at h; cases h
      · rw [if_neg h1] at h
        by_cases h2 : e.eto ∉ ids
        · rw [if_pos h2] at h; cases h
        · rw [if_neg h2] at h
          intro e2 he2
          rcases List.mem_cons.1 he2 with rfl | he3
          · exact ⟨not_not.1 h1, not_not.1 h2⟩
          · exact ih _ h e2 he3

/-- Soundness of `validate_dag`: on success, the returned order is a
permutation of the declared node ids and respects every edge.  `ord` is
any iteration order of the degree map, i.e. any permutation of the ids. -/
theorem validate_dag_sound {J : Type} (w : Workflow J) (ord res : List String)
    (hord : List.Perm ord (w.nodes.map (fun n => n.id)))
    (h : validate_dag ord w = .ok res) :
    List.Perm res (w.nodes.map (fun n => n.id)) ∧
      ∀ e ∈ w.edges, res.indexOf e.efrom < res.indexOf e.eto := by
  unfold validate_dag at h
  cases hdup : dupCheck w.nodes [] with
  | some i => rw [hdup] at h; cases h
  | none =>
  rw [hdup] at h
  cases hec : edgeEndpointCheck w.edges (w.nodes.map (fun n => n.id)) with
  | some r => rw [hec] at h; cases h
  | none =>
  rw [hec] at h
  simp only at h
  obtain ⟨hnd, -⟩ := dupCheck_none w.nodes [] hdup
  have hedge := edgeEndpointCheck_none w.edges (w.nodes.map (fun n => n.id)) hec
  have hordnd : ord.Nodup := (hord.nodup_iff).2 hnd
  have inv0 : KahnInv w.edges (w.nodes.map (fun n => n.id))
      (ord.filter (fun v => inDegree0 w.edges v = 0)) (inDegree0 w.edges) [] := by
    constructor
    · exact (hordnd.filter _)
    · intro x hx
      rw [List.nil_append] at hx
      exact hord.mem_iff.1 (List.mem_filter.1 hx).1
    · intro v
      rw [inCnt_nil_sorted]
    · intro q hq
      exact of_decide_eq_true (List.mem_filter.1 hq).2
    · intro e _ hto
      cases hto
  obtain ⟨queue2, deg2, invf⟩ := kahnLoop_inv w.edges (w.nodes.map (fun n => n.id))
    hedge w.nodes.length (ord.filter (fun v => inDegree0 w.edges v = 0))
    (inDegree0 w.edges) [] inv0
  by_cases hlen :
      (kahnLoop w.edges w.nodes.length (ord.filter (fun v => inDegree0 w.edges v = 0))
        (inDegree0 w.edges) []).length = w.nodes.length
  case neg => rw [if_neg hlen] at h; cases h
  case pos =>
  rw [if_pos hlen] at h
  have hres : kahnLoop w.edges w.nodes.length
      (ord.filter (fun v => inDegree0 w.edges v = 0)) (inDegree0 w.edges) [] = res :=
    Except.ok.inj h
  rw [hres] at invf hlen
  have hresnd : res.Nodup := invf.nodup.of_append_left
  have hressub : ∀ x ∈ res, x ∈ w.nodes.map (fun n => n.id) := fun x hx =>
    invf.sub x (List.mem_append_left _ hx)
  have hperm : List.Perm res (w.nodes.map (fun n => n.id)) := by
    refine List.Subperm.perm_of_length_le (hresnd.subperm hressub) ?_
    rw [List.length_map, hlen]
  refine ⟨hperm, ?_⟩
  intro e he
  have hto : e.eto ∈ res := hperm.mem_iff.2 ((hedge e he).2)
  exact (invf.orderOk e he hto).2

/-- Claim C4: for every workflow on which `validate_dag` succeeds, the
returned sequence is a permutation of the declared node ids (each declared
node, including isolated ones, appears exactly once) and for every edge
`(a, b)` of the workflow, `a` appears before `b` in the sequence.  `ord`
ranges over the possible HashMap iteration orders, i.e. the permutations
of the node ids. -/
theorem C4_validate_dag_topological {J : Type} (w : Workflow J)
    (ord res : List String)
    (hord : List.Perm ord (w.nodes.map (fun n => n.id)))
    (h : validate_dag ord w = .ok res) :
    List.Perm res (w.nodes.map (fun n => n.id)) ∧
      ∀ e ∈ w.edges, res.indexOf e.efrom < res.indexOf e.eto :=
  validate_dag_sound w ord res hord h

theorem C4_validate_dag_topological_witness :
    List.Perm ["a", "b", "c", "d"]
      ((⟨0, "dia", .Manual,
          [⟨"a", "t", 0⟩, ⟨"b", "t", 0⟩, ⟨"c", "t", 0⟩, ⟨"d", "t", 0⟩],
          [⟨"a", "b"⟩, ⟨"a", "c"⟩, ⟨"b", "d"⟩, ⟨"c", "d"⟩], 0⟩ :
          Workflow Nat).nodes.map (fun n => n.id)) ∧
      (["a", "b", "c", "d"] : List String).indexOf "a" <
        (["a", "b", "c", "d"] : List String).indexOf "b" ∧
      (["a", "b", "c", "d"] : List String).indexOf "a" <
        (["a", "b", "c", "d"] : List String).indexOf "c" ∧
      (["a", "b", "c", "d"] : List String).indexOf "b" <
        (["a", "b", "c", "d"] : List String).indexOf "d" ∧
      (["a", "b", "c", "d"] : List String).indexOf "c" <
        (["a", "b", "c", "d"] : List String).indexOf "d" := by
  obtain ⟨h1, h2⟩ :=
    C4_validate_dag_topological
      (⟨0, "dia", .Manual,
        [⟨"a", "t", 0⟩, ⟨"b", "t", 0⟩, ⟨"c", "t", 0⟩, ⟨"d", "t", 0⟩],
        [⟨"a", "b"⟩, ⟨"a", "c"⟩, ⟨"b", "d"⟩, ⟨"c", "d"⟩], 0⟩ : Workflow Nat)
      ["d", "c", "b", "a"] ["a", "b", "c", "d"] (by decide) rfl
  exact ⟨h1, h2 ⟨"a", "b"⟩ (by decide), h2 ⟨"a", "c"⟩ (by decide),
    h2 ⟨"b", "d"⟩ (by decide), h2 ⟨"c", "d"⟩ (by decide)⟩

/-- Claim C5 counterexample: on one and the same workflow (two isolated
nodes `a`, `b`), two hash-iteration orders that both occur for Rust's
randomized `HashMap` give different results: the relative order of the
independent zero-in-degree nodes follows the iteration order, so
`validate_dag(G) = validate_dag(G)` fails once the hasher differs between
the two calls. -/
theorem C5_indep_order_follows_iteration :
    validate_dag ["a", "b"]
        (⟨0, "i", .Manual, [⟨"a", "t", 0⟩, ⟨"b", "t", 0⟩], [], 0⟩ : Workflow Nat) =
      .ok ["a", "b"] ∧
    validate_dag ["b", "a"]
        (⟨0, "i", .Manual, [⟨"a", "t", 0⟩, ⟨"b", "t", 0⟩], [], 0⟩ : Workflow Nat) =
      .ok ["b", "a"] ∧
    List.Perm ["a", "b"] ["b", "a"] ∧
    validate_dag ["a", "b"]
        (⟨0, "i", .Manual, [⟨"a", "t", 0⟩, ⟨"b", "t", 0⟩], [], 0⟩ : Workflow Nat) ≠
      validate_dag ["b", "a"]
        (⟨0, "i", .Manual, [⟨"a", "t", 0⟩, ⟨"b", "t", 0⟩], [], 0⟩ : Workflow Nat) := by
  refine ⟨rfl, rfl, by decide, ?_⟩
  intro h
  rw [show validate_dag ["a", "b"]
        (⟨0, "i", .Manual, [⟨"a", "t", 0⟩, ⟨"b", "t", 0⟩], [], 0⟩ : Workflow Nat) =
      .ok ["a", "b"] from rfl,
    show validate_dag ["b", "a"]
        (⟨0, "i", .Manual, [⟨"a", "t", 0⟩, ⟨"b", "t", 0⟩], [], 0⟩ : Workflow Nat) =
      .ok ["b", "a"] from rfl] at h
  exact absurd (Except.ok.inj h) (by decide)

/-- Claim C5 (amended): the validator is a pure function of the workflow
and of the hash-map iteration order (no I/O, no mutation — it is modelled
as a function); for a fixed iteration order it is deterministic, and any
two successful runs on the same workflow agree up to permutation of the
node ids.  The relative order of independent zero-in-degree nodes is NOT
stable across calls, because each call draws a fresh randomized hasher. -/
theorem C5_validator_agreement {J : Type} (w : Workflow J)
    (ord1 ord2 res1 res2 : List String)
    (h1ord : List.Perm ord1 (w.nodes.map (fun n => n.id)))
    (h2ord : List.Perm ord2 (w.nodes.map (fun n => n.id)))
    (h1 : validate_dag ord1 w = .ok res1)
    (h2 : validate_dag ord2 w = .ok res2) :
    validate_dag ord1 w = validate_dag ord1 w ∧ List.Perm res1 res2 :=
  ⟨rfl, ((validate_dag_sound w ord1 res1 h1ord h1).1).trans
    ((validate_dag_sound w ord2 res2 h2ord h2).1).symm⟩

theorem C5_validator_agreement_witness :
    validate_dag ["a", "b"]
        (⟨0, "i", .Manual, [⟨"a", "t", 0⟩, ⟨"b", "t", 0⟩], [], 0⟩ : Workflow Nat) =
      validate_dag ["a", "b"]
        (⟨0, "i", .Manual, [⟨"a", "t", 0⟩, ⟨"b", "t", 0⟩], [], 0⟩ : Workflow Nat) ∧
    List.Perm ["a", "b"] ["b", "a"] :=
  C5_validator_agreement _ ["a", "b"] ["b", "a"] ["a", "b"] ["b", "a"]
    (by decide) (by decide) rfl rfl

/-! ## Execution engine (crates/engine/src/executor.rs)

The engine is `async` Rust over a database pool; here every repository
write is recorded in an explicit trace and (as in the model of the queue)
is infallible.  A node implementation is arbitrary effectful code; during
one dispatch of one node the engine only observes the sequence of outcomes
of the successive invocations (all made with the same input), so a node is
modelled as a function from the invocation index and the input to an
outcome.  The `ExecutionContext` is fixed for the whole run and can be
absorbed into that function. -/

/-- Outcome of one node invocation (`Result<Value, NodeError>`,
`NodeError` from crates/nodes/src/error.rs). -/
inductive NodeOutcome (J : Type) where
  | ok (output : J)
  | retryable (message : String)
  | fatal (message : String)
  deriving DecidableEq, Repr

/-- Behaviour of a node implementation: outcome as a function of the
invocation index within one dispatch (0-based) and of the input. -/
def NodeBehavior (J : Type) : Type := Nat → J → NodeOutcome J

/-- The node registry: `node_type` → implementation
(`HashMap<String, Arc<dyn ExecutableNode>>`, read-only). -/
def NodeRegistry (J : Type) : Type := String → Option (NodeBehavior J)

/-- Tuning knobs of the executor (`ExecutorConfig`); the base delay is in
abstract time units. -/
structure ExecutorConfig where
  max_retries : Nat
  retry_base_delay : Nat
  deriving DecidableEq, Repr

/-- The `Default` impl: `max_retries = 3`, `retry_base_delay = 100 ms`. -/
def ExecutorConfig.default : ExecutorConfig := ⟨3, 100⟩

/-- The result of running a full workflow (`ExecutionResult`). -/
structure ExecutionResult (J : Type) where
  execution_id : Nat
  output : J
  deriving DecidableEq, Repr

/-- Trace of one `execute_with_retry` dispatch: the returned value, how
many times the node was invoked, and the sleeps performed (in order). -/
structure RetryTrace (J : Type) where
  result : Except EngineError J
  invocations : Nat
  sleeps : List Nat
  deriving Repr

/-- Embeds the loop of `execute_with_retry`.  `attempts` is the mutable
counter at the start of the iteration (0 on entry).  On `Retryable` the
counter is incremented; if it exceeds `max_retries` the dispatch aborts
with `NodeRetryExhausted`, otherwise the engine sleeps
`retry_base_delay * 2u32.pow(attempts - 1)` and re-invokes.  The `u32`
power wraps modulo `2^32` (release-profile Rust overflow semantics), and
`saturating_sub` is Nat subtraction. -/
def executeWithRetryGo {J : Type} (cfg : ExecutorConfig) (node_id : String)
    (node : Nat → NodeOutcome J) (attempts : Nat) : RetryTrace J :=
  match node attempts with
  | .ok output => ⟨.ok output, 1, []⟩
  | .fatal msg => ⟨.error (.NodeFatal node_id msg), 1, []⟩
  | .retryable msg =>
      if h : attempts + 1 > cfg.max_retries then
        ⟨.error (.NodeRetryExhausted node_id msg), 1, []⟩
      else
        let t := executeWithRetryGo cfg node_id node (attempts + 1)
        ⟨t.result, t.invocations + 1,
         cfg.retry_base_delay * (2 ^ (attempts + 1 - 1) % 2 ^ 32) :: t.sleeps⟩
  termination_by cfg.max_retries + 1 - attempts
  decreasing_by simp_wf; omega

/-- Embeds `execute_with_retry` (the counter starts at 0; every
re-invocation passes the same input, so it is pre-applied in `node`). -/
def execute_with_retry {J : Type} (cfg : ExecutorConfig) (node_id : String)
    (node : Nat → NodeOutcome J) : RetryTrace J :=
  executeWithRetryGo cfg node_id node 0

/-- Return value of `run`, with the extra possibility of a Rust panic
coming from the unchecked index `node_map[node_id.as_str()]`. -/
inductive RunResult (J : Type) where
  | ok (res : ExecutionResult J)
  | err (e : EngineError)
  | panicked
  deriving DecidableEq, Repr

/-- One `insert_node_execution` call (the persisted NodeExecution row,
restricted to the fields the engine chooses). -/
structure NodeRow (J : Type) where
  node_id : String
  input : J
  output : Option J
  status : String
  deriving DecidableEq, Repr

/-- Trace of the per-node loop of `run` (everything after the `running`
transition). -/
structure LoopOut (J : Type) where
  result : RunResult J
  rows : List (NodeRow J)
  statusWrites : List (String × Bool)
  invocations : List (String × Nat)
  deriving Repr

/-- Observable trace of one `run` call: return value, whether the
WorkflowExecution row was created, the `update_execution_status` calls in
order (status, finished flag), the `insert_node_execution` calls in order,
and the invocation count of each dispatched node. -/
structure RunTrace (J : Type) where
  result : RunResult J
  created : Bool
  statusWrites : List (String × Bool)
  rows : List (NodeRow J)
  invocations : List (String × Nat)
  deriving Repr

/-- Embeds the node loop of `WorkflowExecutor::run` together with the
terminal transition: dispatch each node id in order, looking it up in the
prebuilt `node_map` (a miss is the Rust panic) and its `node_type` in the
registry (a miss returns `NodeFatal` via `?` — with no failure row and no
status write); thread the previous output into the next input; on success
persist a `succeeded` row; on dispatch failure persist a `failed` row,
mark the execution `failed` and return the error; after the last node mark
the execution `succeeded` and return the current value. -/
def runLoop {J : Type} (cfg : ExecutorConfig) (registry : NodeRegistry J)
    (nodes : List (NodeDefinition J)) (execId : Nat) :
    List String → J → LoopOut J
  | [], current =>
      ⟨.ok ⟨execId, current⟩, [], [("succeeded", true)], []⟩
  | node_id :: restIds, current =>
      match nodes.find? (fun n => n.id = node_id) with
      | none => ⟨.panicked, [], [], []⟩
      | some node_def =>
          match registry node_def.node_type with
          | none =>
              ⟨.err (.NodeFatal node_id
                ("no implementation registered for node_type '" ++
                  node_def.node_type ++ "'")),
               [], [], []⟩
          | some behavior =>
              let t := execute_with_retry cfg node_id (fun k => behavior k current)
              match t.result with
              | .ok output =>
                  let rest := runLoop cfg registry nodes execId restIds output
                  ⟨rest.result,
                   ⟨node_id, current, some output, "succeeded"⟩ :: rest.rows,
                   rest.statusWrites,
                   (node_id, t.invocations) :: rest.invocations⟩
              | .error e =>
                  ⟨.err e, [⟨node_id, current, none, "failed"⟩],
                   [("failed", true)], [(node_id, t.invocations)]⟩

/-- Embeds `WorkflowExecutor::run`: validate the DAG (propagating errors
before any row is created), create the WorkflowExecution row (its fresh
UUID is the parameter `execId`), transition it to `running`, then run the
node loop.  `ord` is the validator's hash-iteration order. -/
def run {J : Type} (cfg : ExecutorConfig) (registry : NodeRegistry J)
    (ord : List String) (w : Workflow J) (execId : Nat) (initial_input : J) :
    RunTrace J :=
  match validate_dag ord w with
  | .error e => ⟨.err e, false, [], [], []⟩
  | .ok sorted_ids =>
      let lo := runLoop cfg registry w.nodes execId sorted_ids initial_input
      ⟨lo.result, true, ("running", false) :: lo.statusWrites, lo.rows,
       lo.invocations⟩

/-! ## Retry policy: exhaustion behaviour -/

/-- Closed form of the retry loop on a node whose every invocation is
retryable: invocations count down the remaining budget, the final error
carries the message of the last invocation (index `max_retries`), and the
sleeps are `base * (2^(a-1) mod 2^32)` for `a = attempts+1 … max_retries`. -/
theorem executeWithRetryGo_all_retryable {J : Type} (cfg : ExecutorConfig)
    (node_id : String) (msgs : Nat → String) :
    ∀ (n attempts : Nat), cfg.max_retries - attempts = n →
      attempts ≤ cfg.max_retries →
      executeWithRetryGo cfg node_id
          (fun k => (NodeOutcome.retryable (msgs k) : NodeOutcome J)) attempts =
        ⟨.error (.NodeRetryExhausted node_id (msgs cfg.max_retries)),
         cfg.max_retries + 1 - attempts,
         (List.range' (attempts + 1) (cfg.max_retries - attempts)).map
           (fun a => cfg.retry_base_delay * (2 ^ (a - 1) % 2 ^ 32))⟩ := by
  intro n
  induction n with
  | zero =>
      intro attempts h0 hle
      have heq : attempts = cfg.max_retries := by omega
      subst heq
      rw [executeWithRetryGo]
      dsimp only
      rw [dif_pos (by omega)]
      have h1 : cfg.max_retries + 1 - cfg.max_retries = 1 := by omega
      have h2 : cfg.max_retries - cfg.max_retries = 0 := by omega
      rw [h1, h2]
      rfl
  | succ n ih =>
      intro attempts h0 hle
      have hlt : attempts < cfg.max_retries := by omega
      rw [executeWithRetryGo]
      dsimp only
      rw [dif_neg (by omega)]
      rw [ih (attempts + 1) (by omega) (by omega)]
      dsimp only
      have h1 : cfg.max_retries + 1 - (attempts + 1) + 1 =
          cfg.max_retries + 1 - attempts := by omega
      have h2 : cfg.max_retries - attempts =
          (cfg.max_retries - (attempts + 1)) + 1 := by omega
      rw [h1, h2, List.range'_succ, List.map_cons]

/-- Claim C6 (amended): a node whose every invocation returns `Retryable`
is invoked exactly `max_retries + 1` times and the dispatch then fails
with `NodeRetryExhausted{node_id, message}` carrying the last retryable
message; before the a-th re-invocation (1 ≤ a ≤ max_retries) the engine
sleeps `base_delay * (2^(a-1) mod 2^32)` — the `mod 2^32` is the wrap of
the `u32` power `2u32.pow(a-1)`, invisible for `a ≤ 32` and in particular
under the default `max_retries = 3`. -/
theorem C6_retry_exhaustion {J : Type} (cfg : ExecutorConfig) (node_id : String)
    (node : Nat → NodeOutcome J) (msgs : Nat → String)
    (hnode : ∀ k, node k = .retryable (msgs k)) :
    (execute_with_retry cfg node_id node).invocations = cfg.max_retries + 1 ∧
    (execute_with_retry cfg node_id node).result =
      .error (.NodeRetryExhausted node_id (msgs cfg.max_retries)) ∧
    (execute_with_retry cfg node_id node).sleeps.length = cfg.max_retries ∧
    ∀ a, 1 ≤ a → a ≤ cfg.max_retries →
      (execute_with_retry cfg node_id node).sleeps[a - 1]? =
        some (cfg.retry_base_delay * (2 ^ (a - 1) % 2 ^ 32)) := by
  have hfun : node = fun k => .retryable (msgs k) := funext hnode
  subst hfun
  unfold execute_with_retry
  rw [executeWithRetryGo_all_retryable cfg node_id msgs cfg.max_retries 0 rfl
    (by omega)]
  refine ⟨rfl, rfl, by simp, ?_⟩
  intro a h1 h2
  rw [List.getElem?_map, List.getElem?_range' _ _ (by omega)]
  simp only [Option.map_some']
  have : 0 + 1 + 1 * (a - 1) = a := by omega
  rw [this]

theorem C6_retry_exhaustion_witness :
    (execute_with_retry ExecutorConfig.default "flaky"
        (fun _ => (.retryable "transient" : NodeOutcome Nat))).invocations = 4 ∧
    (execute_with_retry ExecutorConfig.default "flaky"
        (fun _ => (.retryable "transient" : NodeOutcome Nat))).result =
      .error (.NodeRetryExhausted "flaky" "transient") ∧
    (execute_with_retry ExecutorConfig.default "flaky"
        (fun _ => (.retryable "transient" : NodeOutcome Nat))).sleeps.length = 3 ∧
    (execute_with_retry ExecutorConfig.default "flaky"
        (fun _ => (.retryable "transient" : NodeOutcome Nat))).sleeps[0]? =
      some 100 ∧
    (execute_with_retry ExecutorConfig.default "flaky"
        (fun _ => (.retryable "transient" : NodeOutcome Nat))).sleeps[1]? =
      some 200 ∧
    (execute_with_retry ExecutorConfig.default "flaky"
        (fun _ => (.retryable "transient" : NodeOutcome Nat))).sleeps[2]? =
      some 400 := by
  obtain ⟨h1, h2, h3, h4⟩ :=
    C6_retry_exhaustion (J := Nat) ExecutorConfig.default "flaky"
      (fun _ => .retryable "transient") (fun _ => "transient") (fun _ => rfl)
  refine ⟨h1, h2, h3, ?_, ?_, ?_⟩
  · have := h4 1 (by decide) (by decide)
    simpa using this
  · have := h4 2 (by decide) (by decide)
    simpa using this
  · have := h4 3 (by decide) (by decide)
    simpa using this

/-- Claim C6 counterexample: the claim's sleep formula
`base_delay * 2^(a-1)` fails at `a = 33`: with `max_retries = 33` and
`base_delay = 100`, the sleep before the 33rd re-invocation is
`100 * (2^32 mod 2^32) = 0` — `2u32.pow(32)` wraps to 0 — not
`100 * 2^32`. -/
theorem C6_sleep_wraps_at_33 :
    (execute_with_retry ⟨33, 100⟩ "n"
        (fun _ => (.retryable "m" : NodeOutcome Nat))).sleeps[(32 : Nat)]? =
      some 0 ∧ (0 : Nat) ≠ 100 * 2 ^ 32 := by
  constructor
  · rw [show (fun _ => (.retryable "m" : NodeOutcome Nat)) =
        (fun k => (.retryable ((fun _ => "m") k) : NodeOutcome Nat)) from rfl]
    rw [execute_with_retry,
      executeWithRetryGo_all_retryable ⟨33, 100⟩ "n" (fun _ => "m") 33 0 rfl
        (by decide)]
    rw [List.getElem?_map, List.getElem?_range' _ _ (by decide)]
    norm_num
  · norm_num

/-! ## Engine error handling -/

/-- If the node loop persisted a `failed` NodeExecution row, the loop also
wrote the `failed` terminal status and returned an error: the only branch
that inserts a failed row is the dispatch-failure branch, which does both. -/
theorem runLoop_failed_row {J : Type} (cfg : ExecutorConfig)
    (registry : NodeRegistry J) (nodes : List (NodeDefinition J)) (execId : Nat) :
    ∀ (ids : List String) (current : J),
      (∃ r ∈ (runLoop cfg registry nodes execId ids current).rows,
        r.status = "failed") →
      (runLoop cfg registry nodes execId ids current).statusWrites =
        [("failed", true)] ∧
      ∃ e, (runLoop cfg registry nodes execId ids current).result = .err e := by
  intro ids
  induction ids with
  | nil =>
      intro current hex
      obtain ⟨r, hr, -⟩ := hex
      rw [runLoop] at hr
      cases hr
  | cons nid restIds ih =>
      intro current hex
      rw [runLoop] at hex ⊢
      cases hfind : nodes.find? (fun n => n.id = nid) with
      | none =>
          rw [hfind] at hex
          dsimp only at hex
          obtain ⟨r, hr, -⟩ := hex
          cases hr
      | some nd =>
          rw [hfind] at hex
          dsimp only at hex ⊢
          cases hreg : registry nd.node_type with
          | none =>
              rw [hreg] at hex
              dsimp only at hex
              obtain ⟨r, hr, -⟩ := hex
              cases hr
          | some behavior =>
              rw [hreg] at hex
              dsimp only at hex ⊢
              cases hres :
                  (execute_with_retry cfg nid (fun k => behavior k current)).result with
              | ok output =>
                  rw [hres] at hex
                  dsimp only at hex ⊢
                  obtain ⟨r, hr, hst⟩ := hex
                  rcases List.mem_cons.1 hr with rfl | hr2
                  · simp at hst
                  · exact ih output ⟨r, hr2, hst⟩
              | error e =>
                  exact ⟨rfl, e, rfl⟩

/-- Claim C2 counterexample: a run whose single node has an unregistered
`node_type` creates the WorkflowExecution row, returns `NodeFatal` via the
`?` on the registry lookup, and never transitions the row to `failed` —
the only status write is the initial `running`, so the row is left in
`running` forever. -/
theorem C2_registry_miss_leaves_running :
    run ⟨3, 100⟩ (fun _ => none) ["a"]
        (⟨0, "w", .Manual, [⟨"a", "missing", 0⟩], [], 0⟩ : Workflow Nat) 7 0 =
      ⟨.err (.NodeFatal "a" "no implementation registered for node_type 'missing'"),
       true, [("running", false)], [], []⟩ ∧
    ("failed", true) ∉
      (run ⟨3, 100⟩ (fun _ => none) ["a"]
        (⟨0, "w", .Manual, [⟨"a", "missing", 0⟩], [], 0⟩ : Workflow Nat) 7 0).statusWrites := by
  refine ⟨rfl, ?_⟩
  intro hmem
  rw [show (run ⟨3, 100⟩ (fun _ => none) ["a"]
      (⟨0, "w", .Manual, [⟨"a", "missing", 0⟩], [], 0⟩ : Workflow Nat) 7 0).statusWrites =
    [("running", false)] from rfl] at hmem
  exact absurd (List.mem_singleton.1 hmem) (by decide)

/-- Claim C2 (amended): the engine transitions the WorkflowExecution row
to `failed` before returning exactly when the error came from a node
dispatch (fatal error or retry exhaustion, witnessed by the `failed`
NodeExecution row it persists); on a registry miss — and on database
errors — the error propagates through `?` without the `failed` transition
and the row is left in `running`. -/
theorem C2_failed_status_on_dispatch_failure {J : Type} (cfg : ExecutorConfig)
    (registry : NodeRegistry J) (ord : List String) (w : Workflow J)
    (execId : Nat) (input : J)
    (hrow : ∃ r ∈ (run cfg registry ord w execId input).rows,
      r.status = "failed") :
    ("failed", true) ∈ (run cfg registry ord w execId input).statusWrites ∧
    ∃ e, (run cfg registry ord w execId input).result = .err e := by
  rw [run] at hrow ⊢
  cases hv : validate_dag ord w with
  | error e =>
      rw [hv] at hrow
      obtain ⟨r, hr, -⟩ := hrow
      cases hr
  | ok sorted =>
      rw [hv] at hrow
      dsimp only at hrow ⊢
      obtain ⟨hw, e, he⟩ := runLoop_failed_row cfg registry w.nodes execId
        sorted input hrow
      exact ⟨by rw [hw]; exact List.mem_cons_of_mem _ (List.mem_singleton.2 rfl),
        e, he⟩

theorem C2_failed_status_on_dispatch_failure_witness :
    ("failed", true) ∈
      (run ⟨3, 100⟩
        (fun ty => if ty = "boom" then
          some (fun _ _ => (.fatal "broke" : NodeOutcome Nat)) else none)
        ["b"] (⟨0, "w", .Manual, [⟨"b", "boom", 0⟩], [], 0⟩ : Workflow Nat)
        7 0).statusWrites ∧
    ∃ e, (run ⟨3, 100⟩
        (fun ty => if ty = "boom" then
          some (fun _ _ => (.fatal "broke" : NodeOutcome Nat)) else none)
        ["b"] (⟨0, "w", .Manual, [⟨"b", "boom", 0⟩], [], 0⟩ : Workflow Nat)
        7 0).result = .err e := by
  apply C2_failed_status_on_dispatch_failure
  refine ⟨⟨"b", 0, none, "failed"⟩, ?_, rfl⟩
  rw [show (run ⟨3, 100⟩
      (fun ty => if ty = "boom" then
        some (fun _ _ => (.fatal "broke" : NodeOutcome Nat)) else none)
      ["b"] (⟨0, "w", .Manual, [⟨"b", "boom", 0⟩], [], 0⟩ : Workflow Nat)
      7 0).rows = [⟨"b", 0, none, "failed"⟩] by
    simp [run, runLoop, execute_with_retry, executeWithRetryGo, validate_dag,
      dupCheck, edgeEndpointCheck, inDegree0, adjacency, kahnLoop,
      processNeighbors]]
  exact List.mem_singleton.2 rfl

/-! ## Safety of the executor node-map lookup -/

/-- A node id among the declared ids is found by the `node_map` lookup. -/
theorem find?_node_of_mem {J : Type} (nodes : List (NodeDefinition J)) :
    ∀ nid, nid ∈ nodes.map (fun n => n.id) →
      ∃ nd, nodes.find? (fun n => n.id = nid) = some nd := by
  induction nodes with
  | nil => intro nid h; rw [List.map_nil] at h; cases h
  | cons n ns ih =>
      intro nid h
      by_cases he : n.id = nid
      · exact ⟨n, List.find?_cons_of_pos _ (by simp [he])⟩
      · rw [List.map_cons] at h
        rcases List.mem_cons.1 h with rfl | h2
        · exact absurd rfl he
        · obtain ⟨nd, hnd⟩ := ih nid h2
          exact ⟨nd, by rw [List.find?_cons_of_neg _ (by simp [he])]; exact hnd⟩

/-- The node loop never panics when every id it visits is declared. -/
theorem runLoop_no_panic {J : Type} (cfg : ExecutorConfig)
    (registry : NodeRegistry J) (nodes : List (NodeDefinition J)) (execId : Nat) :
    ∀ (ids : List String) (current : J),
      (∀ nid ∈ ids, nid ∈ nodes.map (fun n => n.id)) →
      (runLoop cfg registry nodes execId ids current).result ≠ .panicked := by
  intro ids
  induction ids with
  | nil =>
      intro current _ h
      rw [runLoop] at h
      cases h
  | cons nid restIds ih =>
      intro current hsub h
      rw [runLoop] at h
      obtain ⟨nd, hnd⟩ := find?_node_of_mem nodes nid
        (hsub nid (List.mem_cons_self nid restIds))
      rw [hnd] at h
      dsimp only at h
      cases hreg : registry nd.node_type with
      | none =>
          rw [hreg] at h
          cases h
      | some behavior =>
          rw [hreg] at h
          dsimp only at h
          cases hres :
              (execute_with_retry cfg nid (fun k => behavior k current)).result with
          | ok output =>
              rw [hres] at h
              dsimp only at h
              exact ih output
                (fun x hx => hsub x (List.mem_cons_of_mem nid hx)) h
          | error e =>
              rw [hres] at h
              cases h

/-- Claim C10: for every workflow on which `validate_dag` succeeds, every
id in the returned order is the id of a declared node; consequently the
unchecked `node_map[node_id.as_str()]` lookup in `run` is defined for
every id it visits, and `run` can never panic (for every registry, input
and config). -/
theorem C10_sorted_ids_declared_no_panic {J : Type} (w : Workflow J)
    (ord : List String)
    (hord : List.Perm ord (w.nodes.map (fun n => n.id))) :
    (∀ res, validate_dag ord w = .ok res →
      ∀ nid ∈ res, nid ∈ w.nodes.map (fun n => n.id)) ∧
    ∀ (cfg : ExecutorConfig) (registry : NodeRegistry J) (execId : Nat)
      (input : J),
      (run cfg registry ord w execId input).result ≠ .panicked := by
  constructor
  · intro res hres nid hnid
    exact ((validate_dag_sound w ord res hord hres).1).mem_iff.1 hnid
  · intro cfg registry execId input
    rw [run]
    cases hv : validate_dag ord w with
    | error e => intro h; cases h
    | ok sorted =>
        dsimp only
        exact runLoop_no_panic cfg registry w.nodes execId sorted input
          (fun nid hnid =>
            ((validate_dag_sound w ord sorted hord hv).1).mem_iff.1 hnid)

theorem C10_sorted_ids_declared_no_panic_witness :
    ("a" ∈ ((⟨0, "w", .Manual, [⟨"a", "missing", 0⟩], [], 0⟩ :
        Workflow Nat).nodes.map (fun n => n.id))) ∧
    (run ⟨3, 100⟩ (fun _ => none) ["a"]
        (⟨0, "w", .Manual, [⟨"a", "missing", 0⟩], [], 0⟩ : Workflow Nat)
        7 0).result ≠ .panicked := by
  obtain ⟨h1, h2⟩ := C10_sorted_ids_declared_no_panic
    (⟨0, "w", .Manual, [⟨"a", "missing", 0⟩], [], 0⟩ : Workflow Nat)
    ["a"] (by decide)
  exact ⟨h1 ["a"] rfl "a" (List.mem_singleton.2 rfl),
    h2 ⟨3, 100⟩ (fun _ => none) 7 0⟩

/-! ## Serial output threading -/

/-- The rows form a chain: the first input is `init`, each row records a
success whose output feeds the next row's input, and the last output is
`final` (`final = init` for an empty chain). -/
def chainedRows {J : Type} : J → List (NodeRow J) → J → Prop
  | init, [], final => final = init
  | init, r :: rs, final =>
      r.input = init ∧ r.status = "succeeded" ∧
      ∃ out, r.output = some out ∧ chainedRows out rs final

/-- On a successful loop, the rows chain the initial input to the returned
output, one `succeeded` row per visited id in order, and the only status
write is the `succeeded` terminal transition. -/
theorem runLoop_ok_spec {J : Type} (cfg : ExecutorConfig)
    (registry : NodeRegistry J) (nodes : List (NodeDefinition J)) (execId : Nat) :
    ∀ (ids : List String) (current : J) (res : ExecutionResult J),
      (runLoop cfg registry nodes execId ids current).result = .ok res →
      res.execution_id = execId ∧
      chainedRows current (runLoop cfg registry nodes execId ids current).rows
        res.output ∧
      (runLoop cfg registry nodes execId ids current).rows.map
        (fun r => r.node_id) = ids ∧
      (runLoop cfg registry nodes execId ids current).statusWrites =
        [("succeeded", true)] := by
  intro ids
  induction ids with
  | nil =>
      intro current res h
      rw [runLoop] at h ⊢
      have : res = ⟨execId, current⟩ := by
        cases h
        rfl
      subst this
      exact ⟨rfl, rfl, rfl, rfl⟩
  | cons nid restIds ih =>
      intro current res h
      rw [runLoop] at h ⊢
      cases hfind : nodes.find? (fun n => n.id = nid) with
      | none =>
          rw [hfind] at h
          dsimp only at h
          cases h
      | some nd =>
          rw [hfind] at h
          dsimp only at h ⊢
          cases hreg : registry nd.node_type with
          | none =>
              rw [hreg] at h
              dsimp only at h
              cases h
          | some behavior =>
              rw [hreg] at h
              dsimp only at h ⊢
              cases hres :
                  (execute_with_retry cfg nid (fun k => behavior k current)).result with
              | ok output =>
                  rw [hres] at h
                  dsimp only at h ⊢
                  obtain ⟨h1, h2, h3, h4⟩ := ih output res h
                  exact ⟨h1, ⟨rfl, rfl, output, rfl, h2⟩,
                    by rw [List.map_cons, h3], h4⟩
              | error e =>
                  rw [hres] at h
                  dsimp only at h
                  cases h

/-- Claim C8: for every successful run, the persisted NodeExecution rows
follow the topological order returned by the validator, the input of the
first row is the initial input, the input of every later row equals the
previous row's output, and the `ExecutionResult.output` equals the last
row's output (the initial input when there are no nodes). -/
theorem C8_output_threading {J : Type} (cfg : ExecutorConfig)
    (registry : NodeRegistry J) (ord : List String) (w : Workflow J)
    (execId : Nat) (input : J) (res : ExecutionResult J)
    (h : (run cfg registry ord w execId input).result = .ok res) :
    chainedRows input (run cfg registry ord w execId input).rows res.output ∧
    ∃ sorted, validate_dag ord w = .ok sorted ∧
      (run cfg registry ord w execId input).rows.map (fun r => r.node_id) =
        sorted := by
  rw [run] at h ⊢
  cases hv : validate_dag ord w with
  | error e =>
      rw [hv] at h
      cases h
  | ok sorted =>
      rw [hv] at h
      dsimp only at h ⊢
      obtain ⟨-, h2, h3, -⟩ := runLoop_ok_spec cfg registry w.nodes execId
        sorted input res h
      exact ⟨h2, sorted, rfl, h3⟩

theorem C8_output_threading_witness :
    chainedRows 0
      (run ⟨3, 100⟩
        (fun ty => if ty = "a" then some (fun _ _ => (.ok 1 : NodeOutcome Nat))
          else if ty = "b" then some (fun _ inp => .ok (inp + 1)) else none)
        ["a", "b"]
        (⟨0, "lin", .Manual, [⟨"a", "a", 0⟩, ⟨"b", "b", 0⟩], [⟨"a", "b"⟩], 0⟩ :
          Workflow Nat) 7 0).rows 2 ∧
    ∃ sorted,
      validate_dag ["a", "b"]
          (⟨0, "lin", .Manual, [⟨"a", "a", 0⟩, ⟨"b", "b", 0⟩], [⟨"a", "b"⟩], 0⟩ :
            Workflow Nat) = .ok sorted ∧
      (run ⟨3, 100⟩
        (fun ty => if ty = "a" then some (fun _ _ => (.ok 1 : NodeOutcome Nat))
          else if ty = "b" then some (fun _ inp => .ok (inp + 1)) else none)
        ["a", "b"]
        (⟨0, "lin", .Manual, [⟨"a", "a", 0⟩, ⟨"b", "b", 0⟩], [⟨"a", "b"⟩], 0⟩ :
          Workflow Nat) 7 0).rows.map (fun r => r.node_id) = sorted := by
  apply C8_output_threading _ _ _ _ _ _ ⟨7, 2⟩
  simp [run, runLoop, execute_with_retry, executeWithRetryGo, validate_dag,
    dupCheck, edgeEndpointCheck, inDegree0, adjacency, kahnLoop,
    processNeighbors]

/-! ## Linear workflows (the shape of spec scenarios 1 and 4) -/

/-- Edges of a linear chain: one edge between each pair of consecutive ids. -/
def chainEdges : List String → List Edge
  | [] => []
  | [_] => []
  | x :: y :: rest => ⟨x, y⟩ :: chainEdges (y :: rest)

/-- A linear workflow over the given ids; each node's `node_type` is its
id (so distinct nodes can have distinct implementations in the registry). -/
def linearWorkflow (J : Type) (config : J) (ids : List String) : Workflow J :=
  ⟨0, "linear", .Manual,
   ids.map (fun i => ⟨i, i, config⟩), chainEdges ids, 0⟩

theorem efrom_chainEdges :
    ∀ ids : List String, (chainEdges ids).map (fun e => e.efrom) = ids.dropLast := by
  intro ids
  match ids with
  | [] => rfl
  | [x] => rfl
  | x :: y :: rest =>
      rw [chainEdges, List.map_cons, efrom_chainEdges (y :: rest)]
      rfl

theorem eto_chainEdges :
    ∀ (x : String) (xs : List String),
      (chainEdges (x :: xs)).map (fun e => e.eto) = xs := by
  intro x xs
  match xs with
  | [] => rfl
  | y :: rest =>
      rw [chainEdges, List.map_cons, eto_chainEdges y rest]

theorem chainEdges_endpoints :
    ∀ (ids : List String) (e : Edge), e ∈ chainEdges ids →
      e.efrom ∈ ids ∧ e.eto ∈ ids := by
  intro ids e he
  match ids with
  | [] => cases he
  | [x] => cases he
  | x :: y :: rest =>
      rw [chainEdges] at he
      rcases List.mem_cons.1 he with rfl | he2
      · exact ⟨List.mem_cons_self _ _, List.mem_cons_of_mem _ (List.mem_cons_self _ _)⟩
      · obtain ⟨h1, h2⟩ := chainEdges_endpoints (y :: rest) e he2
        exact ⟨List.mem_cons_of_mem _ h1, List.mem_cons_of_mem _ h2⟩

/-- Converse of `edgeEndpointCheck_none`: valid endpoints pass the check. -/
theorem edgeEndpointCheck_none_of :
    ∀ (edges : List Edge) (ids : List String),
      (∀ e ∈ edges, e.efrom ∈ ids ∧ e.eto ∈ ids) →
      edgeEndpointCheck edges ids = none := by
  intro edges
  induction edges with
  | nil => intro ids _; rfl
  | cons e es ih =>
      intro ids h
      obtain ⟨h1, h2⟩ := h e (List.mem_cons_self e es)
      rw [edgeEndpointCheck, if_neg (not_not.2 h1), if_neg (not_not.2 h2)]
      exact ih ids (fun e2 he2 => h e2 (List.mem_cons_of_mem e he2))

/-- Converse of `dupCheck_none`: distinct unseen ids pass the check. -/
theorem dupCheck_none_of {J : Type} :
    ∀ (ns : List (NodeDefinition J)) (seen : List String),
      (ns.map (fun n => n.id)).Nodup →
      (∀ i ∈ ns.map (fun n => n.id), i ∉ seen) →
      dupCheck ns seen = none := by
  intro ns
  induction ns with
  | nil => intro seen _ _; rfl
  | cons n ns ih =>
      intro seen hnd hdisj
      rw [List.map_cons, List.nodup_cons] at hnd
      rw [dupCheck, if_neg (hdisj n.id (by rw [List.map_cons]; exact List.mem_cons_self _ _))]
      refine ih _ hnd.2 ?_
      intro i hi
      intro hseen
      rcases List.mem_cons.1 hseen with rfl | hseen2
      · exact hnd.1 hi
      · exact hdisj i (by rw [List.map_cons]; exact List.mem_cons_of_mem _ hi) hseen2

theorem inDegree0_eq_cnt_eto (edges : List Edge) (v : String) :
    inDegree0 edges v = cnt v (edges.map (fun e => e.eto)) := by
  induction edges with
  | nil => rfl
  | cons e es ih =>
      rw [List.map_cons, cnt_cons]
      unfold inDegree0 at *
      by_cases hv : e.eto = v
      · rw [List.filter_cons_of_pos (by simp [hv]), List.length_cons, if_pos hv, ih]
        omega
      · rw [List.filter_cons_of_neg (by simp [hv]), if_neg hv, ih]
        omega

theorem cnt_eq_zero_of_not_mem {v : String} {l : List String} (h : v ∉ l) :
    cnt v l = 0 := by
  by_contra hc
  exact h (mem_of_cnt_pos (Nat.pos_of_ne_zero hc))

theorem cnt_eq_one_of_nodup_mem {v : String} {l : List String}
    (hnd : l.Nodup) (h : v ∈ l) : cnt v l = 1 := by
  induction l with
  | nil => cases h
  | cons w ws ih =>
      rw [List.nodup_cons] at hnd
      rw [cnt_cons]
      rcases List.mem_cons.1 h with rfl | h2
      · rw [if_pos rfl, cnt_eq_zero_of_not_mem hnd.1]
      · have hw : ¬ w = v := by
          intro he
          exact hnd.1 (he ▸ h2)
        rw [if_neg hw, ih hnd.2 h2]

theorem adjacency_eq_nil_of_not_efrom {edges : List Edge} {v : String}
    (h : v ∉ edges.map (fun e => e.efrom)) : adjacency edges v = [] := by
  unfold adjacency
  have hf : edges.filter (fun e => e.efrom = v) = [] := by
    rw [List.filter_eq_nil_iff]
    intro e he
    simp only [decide_eq_true_eq]
    intro hef
    exact h (List.mem_map.2 ⟨e, he, hef⟩)
  rw [hf, List.map_nil]

/-- In a duplicate-free chain, the only out-edge of `x` goes to its
successor. -/
theorem adjacency_chain_unique :
    ∀ (pr C po : List String) (x y : String), C.Nodup →
      C = pr ++ x :: y :: po → adjacency (chainEdges C) x = [y] := by
  intro pr
  induction pr with
  | nil =>
      intro C po x y hnd hC
      subst hC
      rw [List.nil_append] at hnd ⊢
      rw [chainEdges]
      have hx : x ∉ (chainEdges (y :: po)).map (fun e => e.efrom) := by
        rw [efrom_chainEdges]
        intro hmem
        exact (List.nodup_cons.1 hnd).1 ((List.dropLast_sublist (y :: po)).subset hmem)
      have htail : adjacency (chainEdges (y :: po)) x = [] :=
        adjacency_eq_nil_of_not_efrom hx
      unfold adjacency at htail ⊢
      rw [List.filter_cons_of_pos (by simp), List.map_cons, htail]
  | cons p pr2 ih =>
      intro C po x y hnd hC
      subst hC
      rw [List.cons_append] at hnd ⊢
      have hnd2 := List.nodup_cons.1 hnd
      have hxmem : x ∈ pr2 ++ x :: y :: po :=
        List.mem_append_right pr2 (List.mem_cons_self x (y :: po))
      have hpx : ¬ p = x := fun he => hnd2.1 (by rw [he]; exact hxmem)
      have hrec : adjacency (chainEdges (pr2 ++ x :: y :: po)) x = [y] :=
        ih (pr2 ++ x :: y :: po) po x y hnd2.2 rfl
      cases pr2 with
      | nil =>
          rw [List.nil_append] at hrec ⊢
          rw [chainEdges]
          unfold adjacency at hrec ⊢
          rw [List.filter_cons_of_neg (by simp [hpx]), hrec]
      | cons q pr3 =>
          rw [List.cons_append] at hrec ⊢
          rw [chainEdges]
          unfold adjacency at hrec ⊢
          rw [List.filter_cons_of_neg (by simp [hpx]), hrec]

/-- Kahn's loop walks a duplicate-free chain from the current head,
emitting the remaining suffix in order. -/
theorem kahnLoop_chain (C : List String) (hnd : C.Nodup) :
    ∀ (xs pre : List String) (x : String) (deg : String → Nat)
      (sorted : List String) (fuel : Nat),
      C = pre ++ x :: xs →
      (∀ v ∈ xs, deg v = 1) →
      fuel ≥ xs.length + 1 →
      kahnLoop (chainEdges C) fuel [x] deg sorted = sorted ++ x :: xs := by
  intro xs
  induction xs with
  | nil =>
      intro pre x deg sorted fuel hC hdeg hfuel
      obtain ⟨fuel2, rfl⟩ : ∃ f2, fuel = f2 + 1 := ⟨fuel - 1, by omega⟩
      rw [kahnLoop]
      have hx : x ∉ (chainEdges C).map (fun e => e.efrom) := by
        rw [efrom_chainEdges, hC, List.dropLast_concat]
        intro hmem
        rw [hC] at hnd
        exact List.disjoint_of_nodup_append hnd hmem (List.mem_singleton.2 rfl)
      rw [adjacency_eq_nil_of_not_efrom hx]
      rw [processNeighbors]
      rw [kahnLoop]
  | cons y rest ih =>
      intro pre x deg sorted fuel hC hdeg hfuel
      obtain ⟨fuel2, rfl⟩ : ∃ f2, fuel = f2 + 1 := ⟨fuel - 1, by omega⟩
      have hdy : deg y = 1 := hdeg y (List.mem_cons_self y rest)
      have hsuf : (y :: rest).Nodup := by
        rw [hC] at hnd
        exact (hnd.of_append_right).of_cons
      rw [kahnLoop]
      rw [hC, adjacency_chain_unique pre (pre ++ x :: y :: rest) rest x y
        (hC ▸ hnd) rfl]
      rw [processNeighbors]
      rw [hdy]
      rw [show (1 : Nat) - 1 = 0 from rfl, if_pos rfl]
      rw [processNeighbors]
      rw [← hC]
      dsimp only
      rw [List.nil_append]
      rw [ih (pre ++ [x]) y (fun u => if u = y then 0 else deg u)
        (sorted ++ [x]) fuel2 (by rw [hC]; simp) ?hdeg (by
          rw [List.length_cons] at hfuel
          omega)]
      · simp
      case hdeg =>
        intro v hv
        have hvy : ¬ v = y := by
          intro he
          exact (List.nodup_cons.1 hsuf).1 (he ▸ hv)
        dsimp only
        rw [if_neg hvy]
        exact hdeg v (List.mem_cons_of_mem y hv)

/-- On a linear workflow with distinct node ids, `validate_dag` succeeds
and returns exactly the chain order, for every hash-iteration order. -/
theorem validate_dag_linear {J : Type} (config : J) (ids : List String)
    (hnd : ids.Nodup) (ord : List String) (hord : List.Perm ord ids) :
    validate_dag ord (linearWorkflow J config ids) = .ok ids := by
  have hids : ((linearWorkflow J config ids).nodes.map (fun n => n.id)) = ids := by
    unfold linearWorkflow
    rw [List.map_map]
    exact List.map_id ids
  have h1 : dupCheck (linearWorkflow J config ids).nodes [] = none :=
    dupCheck_none_of _ [] (by rw [hids]; exact hnd) (fun i _ => List.not_mem_nil i)
  have h2 : edgeEndpointCheck (linearWorkflow J config ids).edges
      ((linearWorkflow J config ids).nodes.map (fun n => n.id)) = none := by
    refine edgeEndpointCheck_none_of _ _ ?_
    rw [hids]
    intro e he
    exact chainEdges_endpoints ids e he
  unfold validate_dag
  rw [h1]
  dsimp only
  rw [h2]
  dsimp only
  unfold linearWorkflow at *
  dsimp only at *
  rw [List.length_map]
  cases ids with
  | nil =>
      have hordnil : ord = [] := hord.eq_nil
      subst hordnil
      rfl
  | cons x xs =>
      have hdegchain : ∀ v, inDegree0 (chainEdges (x :: xs)) v = cnt v xs := by
        intro v
        rw [inDegree0_eq_cnt_eto, eto_chainEdges]
      have hndc := List.nodup_cons.1 hnd
      have hfx : inDegree0 (chainEdges (x :: xs)) x = 0 := by
        rw [hdegchain]
        exact cnt_eq_zero_of_not_mem hndc.1
      have hfxs : xs.filter (fun v => inDegree0 (chainEdges (x :: xs)) v = 0) = [] := by
        rw [List.filter_eq_nil_iff]
        intro v hv
        simp only [decide_eq_true_eq]
        rw [hdegchain, cnt_eq_one_of_nodup_mem hndc.2 hv]
        omega
      have hfilids :
          (x :: xs).filter (fun v => inDegree0 (chainEdges (x :: xs)) v = 0) = [x] := by
        rw [List.filter_cons_of_pos (by simp [hfx]), hfxs]
      have hfil : ord.filter (fun v => inDegree0 (chainEdges (x :: xs)) v = 0) = [x] :=
        List.perm_singleton.1 ((hord.filter _).trans (by rw [hfilids]))
      rw [hfil]
      rw [kahnLoop_chain (x :: xs) hnd xs [] x
        (inDegree0 (chainEdges (x :: xs))) [] (x :: xs).length rfl
        (fun v hv => by rw [hdegchain]; exact cnt_eq_one_of_nodup_mem hndc.2 hv)
        (by simp)]
      rw [List.nil_append, if_pos rfl]

/-- A node succeeding on its first invocation is invoked once, no sleeps. -/
theorem execute_with_retry_first_ok {J : Type} (cfg : ExecutorConfig)
    (nid : String) (node : Nat → NodeOutcome J) (out : J)
    (h : node 0 = .ok out) :
    execute_with_retry cfg nid node = ⟨.ok out, 1, []⟩ := by
  rw [execute_with_retry, executeWithRetryGo, h]

/-- A node fatal on its first invocation is invoked once and aborts with
`NodeFatal` immediately: no retry, no sleep. -/
theorem execute_with_retry_first_fatal {J : Type} (cfg : ExecutorConfig)
    (nid : String) (node : Nat → NodeOutcome J) (msg : String)
    (h : node 0 = .fatal msg) :
    execute_with_retry cfg nid node = ⟨.error (.NodeFatal nid msg), 1, []⟩ := by
  rw [execute_with_retry, executeWithRetryGo, h]

/-- Looking a chain node up in the prebuilt node map finds its definition. -/
theorem find?_mk_nodes {J : Type} (config : J) :
    ∀ (ids : List String) (i : String), i ∈ ids →
      (ids.map (fun j => (⟨j, j, config⟩ : NodeDefinition J))).find?
          (fun n => n.id = i) = some ⟨i, i, config⟩ := by
  intro ids
  induction ids with
  | nil => intro i h; cases h
  | cons j js ih =>
      intro i h
      by_cases hj : j = i
      · subst hj
        exact List.find?_cons_of_pos _ (by simp)
      · rw [List.map_cons, List.find?_cons_of_neg _ (by simp [hj])]
        rcases List.mem_cons.1 h with rfl | h2
        · exact absurd rfl hj
        · exact ih i h2

/-- Running the node loop along a suffix of the chain that ends in a node
fatal on first attempt, with all earlier suffix nodes succeeding on first
attempt: the loop dispatches each prefix node once, dispatches the fatal
node once, persists exactly the prefix success rows plus one failed row,
writes the `failed` status, and never reaches the nodes after the fatal
one. -/
theorem runLoop_fatal_suffix {J : Type} (cfg : ExecutorConfig)
    (registry : NodeRegistry J) (config : J) (allIds : List String)
    (f : String) (post : List String) (B : String → NodeBehavior J)
    (msg : String) (execId : Nat)
    (hf : ∀ inp, B f 0 inp = .fatal msg) :
    ∀ (pre2 : List String) (current : J),
      (∀ i ∈ pre2 ++ f :: post, i ∈ allIds) →
      (∀ i ∈ pre2 ++ f :: post, registry i = some (B i)) →
      (∀ p ∈ pre2, ∀ inp, ∃ out, B p 0 inp = .ok out) →
      ∃ rowsPre lastIn,
        runLoop cfg registry
            (allIds.map (fun j => (⟨j, j, config⟩ : NodeDefinition J)))
            execId (pre2 ++ f :: post) current =
          ⟨.err (.NodeFatal f msg),
           rowsPre ++ [⟨f, lastIn, none, "failed"⟩],
           [("failed", true)],
           (pre2 ++ [f]).map (fun i => (i, 1))⟩ ∧
        rowsPre.map (fun r => r.node_id) = pre2 ∧
        ∀ r ∈ rowsPre, r.status = "succeeded" := by
  intro pre2
  induction pre2 with
  | nil =>
      intro current hsub hreg _
      refine ⟨[], current, ?_, rfl, fun r hr => absurd hr (List.not_mem_nil r)⟩
      rw [List.nil_append, runLoop]
      rw [find?_mk_nodes config allIds f
        (hsub f (List.mem_cons_self f post))]
      dsimp only
      rw [hreg f (List.mem_cons_self f post)]
      dsimp only
      rw [execute_with_retry_first_fatal cfg f _ msg (hf current)]
      rfl
  | cons p pre3 ih =>
      intro current hsub hreg hpre
      obtain ⟨out, hout⟩ := hpre p (List.mem_cons_self p pre3) current
      obtain ⟨rowsPre, lastIn, hloop, hmap, hstat⟩ := ih out
        (fun i hi => hsub i (List.mem_cons_of_mem p hi))
        (fun i hi => hreg i (List.mem_cons_of_mem p hi))
        (fun q hq inp => hpre q (List.mem_cons_of_mem p hq) inp)
      refine ⟨⟨p, current, some out, "succeeded"⟩ :: rowsPre, lastIn, ?_, ?_, ?_⟩
      · rw [List.cons_append, runLoop]
        rw [find?_mk_nodes config allIds p
          (hsub p (List.mem_cons_self p (pre3 ++ f :: post)))]
        dsimp only
        rw [hreg p (List.mem_cons_self p (pre3 ++ f :: post))]
        dsimp only
        rw [execute_with_retry_first_ok cfg p _ out hout]
        dsimp only
        rw [hloop]
        rfl
      · rw [List.map_cons, hmap]
      · intro r hr
        rcases List.mem_cons.1 hr with rfl | hr2
        · rfl
        · exact hstat r hr2

/-- Claim C7: in a linear workflow whose nodes before `f` succeed on first
attempt and whose node `f` returns `Fatal` on its first attempt, `f` is
invoked exactly once (no retry), `run` returns `NodeFatal{f, msg}`, the
nodes after `f` are never invoked and have no NodeExecution rows, exactly
one `failed` row (with absent output) is persisted for `f` after one
`succeeded` row per earlier node, and the WorkflowExecution ends
`failed`. -/
theorem C7_fatal_short_circuit {J : Type} (cfg : ExecutorConfig)
    (registry : NodeRegistry J) (config : J) (pre post : List String)
    (f : String) (B : String → NodeBehavior J) (msg : String)
    (ord : List String) (execId : Nat) (input : J)
    (hnd : (pre ++ f :: post).Nodup)
    (hord : List.Perm ord (pre ++ f :: post))
    (hreg : ∀ i ∈ pre ++ f :: post, registry i = some (B i))
    (hpre : ∀ p ∈ pre, ∀ inp, ∃ out, B p 0 inp = .ok out)
    (hf : ∀ inp, B f 0 inp = .fatal msg) :
    (run cfg registry ord (linearWorkflow J config (pre ++ f :: post))
        execId input).result = .err (.NodeFatal f msg) ∧
    (run cfg registry ord (linearWorkflow J config (pre ++ f :: post))
        execId input).invocations = (pre ++ [f]).map (fun i => (i, 1)) ∧
    (∃ rowsPre lastIn,
      (run cfg registry ord (linearWorkflow J config (pre ++ f :: post))
          execId input).rows = rowsPre ++ [⟨f, lastIn, none, "failed"⟩] ∧
      rowsPre.map (fun r => r.node_id) = pre ∧
      ∀ r ∈ rowsPre, r.status = "succeeded") ∧
    (∀ p ∈ post, p ∉
      (run cfg registry ord (linearWorkflow J config (pre ++ f :: post))
          execId input).rows.map (fun r => r.node_id)) ∧
    (run cfg registry ord (linearWorkflow J config (pre ++ f :: post))
        execId input).statusWrites = [("running", false), ("failed", true)] := by
  have hv := validate_dag_linear config (pre ++ f :: post) hnd ord hord
  obtain ⟨rowsPre, lastIn, hloop, hmap, hstat⟩ :=
    runLoop_fatal_suffix cfg registry config (pre ++ f :: post) f post B msg
      execId hf pre input (fun i hi => hi) hreg hpre
  have hrun : run cfg registry ord (linearWorkflow J config (pre ++ f :: post))
      execId input =
      ⟨.err (.NodeFatal f msg), true, [("running", false), ("failed", true)],
       rowsPre ++ [⟨f, lastIn, none, "failed"⟩],
       (pre ++ [f]).map (fun i => (i, 1))⟩ := by
    rw [run, hv]
    dsimp only
    rw [show (linearWorkflow J config (pre ++ f :: post)).nodes =
      (pre ++ f :: post).map (fun j => (⟨j, j, config⟩ : NodeDefinition J))
      from rfl]
    rw [hloop]
  rw [hrun]
  refine ⟨rfl, rfl, ⟨rowsPre, lastIn, rfl, hmap, hstat⟩, ?_, rfl⟩
  intro p hp hmem
  rw [List.map_append, hmap] at hmem
  rcases List.mem_append.1 hmem with h1 | h2
  · exact List.disjoint_of_nodup_append hnd h1 (List.mem_cons_of_mem f hp)
  · have hpf : p = f := by simpa using h2
    exact (List.nodup_cons.1 hnd.of_append_right).1 (hpf ▸ hp)

theorem C7_fatal_short_circuit_witness :
    (run ExecutorConfig.default
        (fun ty => some (if ty = "boom"
          then (fun _ _ => (.fatal "broke" : NodeOutcome Nat))
          else (fun _ _ => .ok 5)))
        ["ok", "boom", "never"]
        (linearWorkflow Nat 0 (["ok"] ++ "boom" :: ["never"])) 7 0).result =
      .err (.NodeFatal "boom" "broke") ∧
    (run ExecutorConfig.default
        (fun ty => some (if ty = "boom"
          then (fun _ _ => (.fatal "broke" : NodeOutcome Nat))
          else (fun _ _ => .ok 5)))
        ["ok", "boom", "never"]
        (linearWorkflow Nat 0 (["ok"] ++ "boom" :: ["never"])) 7 0).invocations =
      [("ok", 1), ("boom", 1)] ∧
    (∃ rowsPre lastIn,
      (run ExecutorConfig.default
          (fun ty => some (if ty = "boom"
            then (fun _ _ => (.fatal "broke" : NodeOutcome Nat))
            else (fun _ _ => .ok 5)))
          ["ok", "boom", "never"]
          (linearWorkflow Nat 0 (["ok"] ++ "boom" :: ["never"])) 7 0).rows =
        rowsPre ++ [⟨"boom", lastIn, none, "failed"⟩] ∧
      rowsPre.map (fun r => r.node_id) = ["ok"] ∧
      ∀ r ∈ rowsPre, r.status = "succeeded") ∧
    "never" ∉
      (run ExecutorConfig.default
          (fun ty => some (if ty = "boom"
            then (fun _ _ => (.fatal "broke" : NodeOutcome Nat))
            else (fun _ _ => .ok 5)))
          ["ok", "boom", "never"]
          (linearWorkflow Nat 0 (["ok"] ++ "boom" :: ["never"])) 7 0).rows.map
        (fun r => r.node_id) ∧
    (run ExecutorConfig.default
        (fun ty => some (if ty = "boom"
          then (fun _ _ => (.fatal "broke" : NodeOutcome Nat))
          else (fun _ _ => .ok 5)))
        ["ok", "boom", "never"]
        (linearWorkflow Nat 0 (["ok"] ++ "boom" :: ["never"])) 7 0).statusWrites =
      [("running", false), ("failed", true)] := by
  obtain ⟨h1, h2, h3, h4, h5⟩ :=
    C7_fatal_short_circuit ExecutorConfig.default
      (fun ty => some (if ty = "boom"
        then (fun _ _ => (.fatal "broke" : NodeOutcome Nat))
        else (fun _ _ => .ok 5)))
      0 ["ok"] ["never"] "boom"
      (fun i => if i = "boom"
        then (fun _ _ => (.fatal "broke" : NodeOutcome Nat))
        else (fun _ _ => .ok 5))
      "broke" ["ok", "boom", "never"] 7 0
      (by decide) (by decide) (fun i _ => rfl)
      (by
        intro p hp inp
        rcases List.mem_singleton.1 hp with rfl
        exact ⟨5, rfl⟩)
      (fun inp => rfl)
  exact ⟨h1, h2, h3, h4 "never" (List.mem_singleton.2 rfl), h5⟩

end RustyAutomation
